import Mathlib

/-!
# Liveness analysis pass: UEVAR / KILL classification and the LIVEOUT solver

Shallow embedding of `LivenessAnalysis::runOnFunction`
(`src/Pass/Transforms/LivenessAnalysis/LivenessAnalysis.cpp`).

* A `const AllocaInst *` is an `Option Nat`: `some a` points to the storage slot `a`,
  `none` is `nullptr`.
* A `const BasicBlock *` is the position of the block in the function's block list.
* `std::set<const AllocaInst *>` is a `Finset (Option Nat)`.
* `std::map<const BasicBlock *, std::set<...>>` is a partial function from block handles to
  sets; `operator[]` default-constructs a missing entry.
-/

namespace LivenessAnalysis

/-! ## Data model -/

/-- Pointer to an `AllocaInst`: `some a` is the storage slot `a`, `none` is `nullptr`. -/
abbrev AllocaPtr := Option Nat

/-- The type `std::set<const AllocaInst *>`. -/
abbrev SlotSet := Finset AllocaPtr

/-- The type `std::map<const BasicBlock *, std::set<const AllocaInst *>>`; `none` means that
the map has no entry for the key. -/
abbrev BBMap := Nat → Option SlotSet

/-- The empty map. -/
def BBMap.empty : BBMap := fun _ => none

/-- The set stored under `k`, an absent entry read as the empty set. -/
def BBMap.read (m : BBMap) (k : Nat) : SlotSet := (m k).getD ∅

/-- The map effect of `m[k]`: a missing entry is default-constructed (empty set). -/
def BBMap.touch (m : BBMap) (k : Nat) : BBMap :=
  fun j => if j = k then some (m.read k) else m j

/-- Overwrite the set stored under `k`. -/
def BBMap.write (m : BBMap) (k : Nat) (s : SlotSet) : BBMap :=
  fun j => if j = k then some s else m j

/-- Opcodes for which `Instruction::isBinaryOp()` holds. -/
inductive BinaryOps where
  | Add | FAdd | Sub | FSub | Mul | FMul | UDiv | SDiv | FDiv | URem | SRem | FRem
  | Shl | LShr | AShr | And | Or | Xor
  deriving DecidableEq, Repr

/-- An operand (`Value *`), as far as the pass inspects it: the result of an `alloca`
(a storage slot), the result of a `load` together with the load's pointer operand, or
anything else (constant, argument, result of another instruction). -/
inductive Value where
  | AllocaInst (slot : Nat)
  | LoadInst (ptr : Value)
  | Other
  deriving DecidableEq, Repr

/-- An instruction of a basic block with its operands in `getOperand` order. -/
inductive Instruction where
  | BinaryOp (opc : BinaryOps) (op0 op1 : Value)
  | StoreInst (op0 op1 : Value)
  | ICmpInst (op0 op1 : Value)
  | LoadInst (op0 : Value)
  | Other
  deriving DecidableEq, Repr

/-- A basic block: its instruction sequence and `successors(&bb)` in terminator order
(a successor may be listed more than once, and may be the block itself). -/
structure BasicBlock where
  insts : List Instruction
  succs : List Nat
  deriving DecidableEq, Repr

/-- A function is its list of basic blocks; a block is identified by its position. -/
abbrev Function := List BasicBlock

/-- The three maps of one analysis run. -/
structure Maps where
  bb_live_out_map : BBMap
  bb_uevar_map : BBMap
  bb_kill_map : BBMap

/-- The set `LIVEOUT(b)` in a state. -/
def Maps.LIVEOUT (st : Maps) (b : Nat) : SlotSet := st.bb_live_out_map.read b

/-- The set `UEVAR(b)` in a state. -/
def Maps.UEVAR (st : Maps) (b : Nat) : SlotSet := st.bb_uevar_map.read b

/-- The set `KILL(b)` in a state. -/
def Maps.KILL (st : Maps) (b : Nat) : SlotSet := st.bb_kill_map.read b

/-- The instructions of block `b` (none for a handle outside the function). -/
def instructions (F : Function) (b : Nat) : List Instruction :=
  match F[b]? with
  | some bb => bb.insts
  | none => []

/-- The successors of block `b` (none for a handle outside the function). -/
def successors (F : Function) (b : Nat) : List Nat :=
  match F[b]? with
  | some bb => bb.succs
  | none => []

/-! ## STEP 1: UEVAR and KILL -/

/-- The cast `dyn_cast_or_null<AllocaInst>(v)`. -/
def asAlloca : Value → AllocaPtr
  | Value.AllocaInst a => some a
  | _ => none

/-- The cast `dyn_cast_or_null<LoadInst>(v)`, returning the load's pointer operand. -/
def asLoad : Value → Option Value
  | Value.LoadInst p => some p
  | _ => none

/-- For each of the two operands: the slot it loads from, or `nullptr`. -/
def getAllocaInstFromBinaryOp (op0 op1 : Value) : AllocaPtr × AllocaPtr :=
  let first_alloca : AllocaPtr :=
    match asLoad op0 with
    | some p => asAlloca p
    | none => none
  let second_alloca : AllocaPtr :=
    match asLoad op1 with
    | some p => asAlloca p
    | none => none
  (first_alloca, second_alloca)

/-- The opcodes accepted by the binary-operation branch. -/
def supportedOp (opc : BinaryOps) : Bool :=
  opc == BinaryOps.Add || opc == BinaryOps.Mul || opc == BinaryOps.UDiv ||
    opc == BinaryOps.SDiv || opc == BinaryOps.Sub

/-- One operand of a supported binary operation: when the pointer is non-null, look it up in
`KILL(b)` and insert it into `UEVAR(b)` when it is not there. -/
def binaryOperand (b : Nat) (st : Maps) (a : AllocaPtr) : Maps :=
  if a.isSome then
    let uevar := st.bb_uevar_map.touch b
    let kill := st.bb_kill_map.touch b
    if a ∉ kill.read b then
      { st with bb_uevar_map := uevar.write b (insert a (uevar.read b)), bb_kill_map := kill }
    else
      { st with bb_uevar_map := uevar, bb_kill_map := kill }
  else st

/-- Insert `a` into `UEVAR(b)` without any test (store value and comparison operands). -/
def insertUEVar (b : Nat) (st : Maps) (a : AllocaPtr) : Maps :=
  let uevar := st.bb_uevar_map.touch b
  { st with bb_uevar_map := uevar.write b (insert a (uevar.read b)) }

/-- Operand of a store value or of a comparison: when it is a load, the result of casting the
load's pointer operand to a slot is inserted into `UEVAR(b)`. -/
def loadOperand (b : Nat) (st : Maps) (v : Value) : Maps :=
  match asLoad v with
  | some p => insertUEVar b st (asAlloca p)
  | none => st

/-- The body of the instruction loop for one instruction of block `b`. -/
def classifyInst (b : Nat) (st : Maps) : Instruction → Maps
  | Instruction.BinaryOp opc op0 op1 =>
    if supportedOp opc then
      let alloca_insts := getAllocaInstFromBinaryOp op0 op1
      binaryOperand b (binaryOperand b st alloca_insts.1) alloca_insts.2
    else st
  | Instruction.StoreInst op0 op1 =>
    let st1 :=
      match op1 with
      | Value.AllocaInst a =>
        let kill := st.bb_kill_map.touch b
        { st with bb_kill_map := kill.write b (insert (some a) (kill.read b)) }
      | _ => st
    loadOperand b st1 op0
  | Instruction.ICmpInst op0 op1 => loadOperand b (loadOperand b st op1) op0
  | _ => st

/-- The instruction loop over one block. -/
def classifyBlock (st : Maps) (b : Nat) (bb : BasicBlock) : Maps :=
  bb.insts.foldl (classifyInst b) st

/-- The maps at the start of a run: all empty. -/
def emptyMaps : Maps :=
  { bb_live_out_map := BBMap.empty, bb_uevar_map := BBMap.empty, bb_kill_map := BBMap.empty }

/-- STEP 1 over the blocks `bbs` whose first element has handle `b`. -/
def classifyFrom : Nat → List BasicBlock → Maps → Maps
  | _, [], st => st
  | b, bb :: bbs, st => classifyFrom (b + 1) bbs (classifyBlock st b bb)

/-- STEP 1: the block loop over the function, from empty maps. -/
def classify (F : Function) : Maps := classifyFrom 0 F emptyMaps

/-! ## STEP 2: basic iterative algorithm -/

/-- The body of the successor loop of block `b` for the successor `succ`. -/
def succStep (b : Nat) (st : Maps) (succ : Nat) : Maps :=
  let live := st.bb_live_out_map.touch succ
  let kill := st.bb_kill_map.touch succ
  let uevar := st.bb_uevar_map.touch succ
  let succ_bb_live_out := live.read succ
  let succ_bb_kill := kill.read succ
  let succ_bb_uevar := uevar.read succ
  let diff := succ_bb_live_out \ succ_bb_kill
  { bb_live_out_map := live.write b (live.read b ∪ (diff ∪ succ_bb_uevar))
    bb_uevar_map := uevar
    bb_kill_map := kill }

/-- The body of the block loop of one sweep for block `b`; the flag is `test`. -/
def blockStep (F : Function) (acc : Maps × Bool) (b : Nat) : Maps × Bool :=
  let st := acc.1
  let live0 := st.bb_live_out_map.touch b
  let previous_live_out := live0.read b
  let st1 : Maps := { st with bb_live_out_map := live0.write b ∅ }
  let st2 := (successors F b).foldl (succStep b) st1
  let intersect := st2.bb_live_out_map.read b \ previous_live_out
  (st2, if intersect = ∅ then acc.2 else true)

/-- One sweep: `test := false`, then the blocks in reverse order. -/
def sweep (F : Function) (st : Maps) : Maps × Bool :=
  (List.range F.length).reverse.foldl (blockStep F) (st, false)

/-- The loop `while (test)`: at most `fuel` sweeps; `none` when the fuel does not suffice. -/
def whileLoop (F : Function) : Nat → Maps → Option Maps
  | 0, _ => none
  | fuel + 1, st =>
    let r := sweep F st
    if r.2 then whileLoop F fuel r.1 else some r.1

/-- The state STEP 2 starts in for given UEVAR and KILL maps: LIVEOUT has no entry. -/
def solverInit (uevar kill : BBMap) : Maps :=
  { bb_live_out_map := BBMap.empty, bb_uevar_map := uevar, bb_kill_map := kill }

/-- STEP 2 run on given UEVAR and KILL maps. -/
def solve (F : Function) (uevar kill : BBMap) (fuel : Nat) : Option Maps :=
  whileLoop F fuel (solverInit uevar kill)

/-- STEP 1 followed by STEP 2. -/
def analyse (F : Function) (fuel : Nat) : Option Maps :=
  whileLoop F fuel (classify F)

/-! ## Examples used below -/

/-- Scenario 2: `B0 → B1`, `B1 → B1`, `B1 → B2`. -/
def loopCFG : Function :=
  [ { insts := [], succs := [1] },
    { insts := [], succs := [1, 2] },
    { insts := [], succs := [] } ]

/-- UEVAR for Scenario 2: slot `0` is used in `B1` and `B2`. -/
def loopUEVAR : BBMap := fun b => if b = 1 ∨ b = 2 then some {some 0} else none


/-! ## Auxiliary notions for the statements -/

/-- Slot `v` flows into `LIVEOUT(b)` from some successor: it is upward exposed in a successor,
or live out of a successor other than `b` itself and not killed there. -/
def Flows (F : Function) (U K L : Nat → SlotSet) (b : Nat) (v : AllocaPtr) : Prop :=
  ∃ s ∈ successors F b, v ∈ U s ∨ (s ≠ b ∧ v ∈ L s ∧ v ∉ K s)

/-- The solver invariant for given UEVAR and KILL: the two maps read as given, and every
element of every LIVEOUT set is justified by a successor. -/
structure SolverInv (F : Function) (U K : Nat → SlotSet) (st : Maps) : Prop where
  uevar : st.UEVAR = U
  kill : st.KILL = K
  justified : ∀ b v, v ∈ st.LIVEOUT b → Flows F U K st.LIVEOUT b v

/-- Total number of (block, slot) facts in LIVEOUT over the blocks of the function. -/
def mass (F : Function) (st : Maps) : Nat :=
  ∑ b in Finset.range F.length, (st.LIVEOUT b).card

/-- Every slot that is upward exposed in a successor of some block of the function. -/
def slotUniverse (F : Function) (U : Nat → SlotSet) : SlotSet :=
  (Finset.range F.length).biUnion (fun b => (successors F b).toFinset.biUnion U)

/-- The list `p = [b1, ..., bn]` is a path leaving `b` along successor edges that ends in a
block where `v` is upward exposed and on which `v` is not killed before that block. -/
def LivePath (F : Function) (U K : Nat → SlotSet) (v : AllocaPtr) (b : Nat)
    (p : List Nat) : Prop :=
  List.Chain (fun x y => y ∈ successors F x) b p ∧
    (∃ bn, p.getLast? = some bn ∧ v ∈ U bn) ∧ ∀ x ∈ p.dropLast, v ∉ K x

/-- The state after `i` complete sweeps. -/
def sweeps (F : Function) : Nat → Maps → Maps
  | 0, st => st
  | i + 1, st => (sweep F (sweeps F i st)).1

/-- The state inside a sweep, after the first `j` blocks of the reverse order were handled. -/
def midSweep (F : Function) (j : Nat) (st : Maps) : Maps × Bool :=
  ((List.range F.length).reverse.take j).foldl (blockStep F) (st, false)

/-- The instruction list contains a load of slot `v` that no store to `v` precedes. -/
def UpwardExposedLoad (insts : List Instruction) (v : Nat) : Prop :=
  ∃ pre post, insts = pre ++ Instruction.LoadInst (Value.AllocaInst v) :: post ∧
    ∀ val, Instruction.StoreInst val (Value.AllocaInst v) ∉ pre

/-- Every load of slot `z` in the instruction list is preceded by a store to `z`. -/
def EveryLoadShadowed (insts : List Instruction) (z : Nat) : Prop :=
  ∀ pre post, insts = pre ++ Instruction.LoadInst (Value.AllocaInst z) :: post →
    ∃ val, Instruction.StoreInst val (Value.AllocaInst z) ∈ pre

/-- Instruction `i`, reached after the instructions `pre` of its block, is a recognised
consumer of a load of slot `v`: a store of the loaded value, a comparison with the loaded
value as an operand, or an add, sub, mul, sdiv or udiv with the loaded value as an operand
that no store to `v` precedes in the block. -/
def ConsumesLoadOf (pre : List Instruction) (i : Instruction) (v : Nat) : Prop :=
  (∃ ptr, i = Instruction.StoreInst (Value.LoadInst (Value.AllocaInst v)) ptr) ∨
  (∃ x, i = Instruction.ICmpInst (Value.LoadInst (Value.AllocaInst v)) x ∨
      i = Instruction.ICmpInst x (Value.LoadInst (Value.AllocaInst v))) ∨
  (∃ opc x,
      opc ∈ [BinaryOps.Add, BinaryOps.Sub, BinaryOps.Mul, BinaryOps.SDiv, BinaryOps.UDiv] ∧
      (i = Instruction.BinaryOp opc (Value.LoadInst (Value.AllocaInst v)) x ∨
        i = Instruction.BinaryOp opc x (Value.LoadInst (Value.AllocaInst v))) ∧
      ∀ val, Instruction.StoreInst val (Value.AllocaInst v) ∉ pre)

/-- Scenario 1: `store c, x; load x; load y; add (load x), (load y)` with `x = 0`, `y = 1`. -/
def scenario1 : Function :=
  [ { insts := [Instruction.StoreInst Value.Other (Value.AllocaInst 0),
                Instruction.LoadInst (Value.AllocaInst 0),
                Instruction.LoadInst (Value.AllocaInst 1),
                Instruction.BinaryOp BinaryOps.Add (Value.LoadInst (Value.AllocaInst 0))
                  (Value.LoadInst (Value.AllocaInst 1))],
      succs := [] } ]

/-- Scenario 1 with the add before the store. -/
def scenario1AddFirst : Function :=
  [ { insts := [Instruction.LoadInst (Value.AllocaInst 0),
                Instruction.LoadInst (Value.AllocaInst 1),
                Instruction.BinaryOp BinaryOps.Add (Value.LoadInst (Value.AllocaInst 0))
                  (Value.LoadInst (Value.AllocaInst 1)),
                Instruction.StoreInst Value.Other (Value.AllocaInst 0)],
      succs := [] } ]

/-- Scenario 3: `store c, z; load z; icmp (load z), c; br` with `z = 0`. -/
def scenario3 : Function :=
  [ { insts := [Instruction.StoreInst Value.Other (Value.AllocaInst 0),
                Instruction.LoadInst (Value.AllocaInst 0),
                Instruction.ICmpInst (Value.LoadInst (Value.AllocaInst 0)) Value.Other,
                Instruction.Other],
      succs := [] } ]

/-- A block `load x; ret (load x)`: the load is consumed by an instruction the pass does not
look at. -/
def loadThenReturn : Function :=
  [ { insts := [Instruction.LoadInst (Value.AllocaInst 0), Instruction.Other], succs := [] } ]

/-- A block `load x; store c, x; add (load x), c`: a store to `x` stands between the load and
the add consuming it. -/
def loadStoreAdd : Function :=
  [ { insts := [Instruction.LoadInst (Value.AllocaInst 0),
                Instruction.StoreInst Value.Other (Value.AllocaInst 0),
                Instruction.BinaryOp BinaryOps.Add (Value.LoadInst (Value.AllocaInst 0))
                  Value.Other],
      succs := [] } ]

/-- A block `load p; store (load p), x` where `p` is not a storage slot (a global, an
argument, an element address), as in `x = *p`. -/
def storeFromPointer : Function :=
  [ { insts := [Instruction.LoadInst Value.Other,
                Instruction.StoreInst (Value.LoadInst Value.Other) (Value.AllocaInst 0)],
      succs := [] } ]

/-- A block `load p; icmp (load p), c; br` where `p` is not a storage slot, as in
`if (*p > c)`. -/
def compareFromPointer : Function :=
  [ { insts := [Instruction.LoadInst Value.Other,
                Instruction.ICmpInst (Value.LoadInst Value.Other) Value.Other,
                Instruction.Other],
      succs := [] } ]

/-- A block `load p; add (load p), c` where `p` is not a storage slot. -/
def addFromPointer : Function :=
  [ { insts := [Instruction.LoadInst Value.Other,
                Instruction.BinaryOp BinaryOps.Add (Value.LoadInst Value.Other) Value.Other],
      succs := [] } ]

/-- Every successor of every block is a block of the function. -/
def WellFormed (F : Function) : Prop :=
  ∀ bb ∈ F, ∀ s ∈ bb.succs, s < F.length

/-- The slots mentioned by the UEVAR sets of the blocks of the function. -/
def uevarSlots (F : Function) (U : Nat → SlotSet) : SlotSet :=
  (Finset.range F.length).biUnion U

/-! ## File name and reports -/

/-- The call `s.find_last_of(c)` of `std::string`: the position of the last occurrence of `c`
in `s`; `none` is `npos`. -/
def find_last_of : List Char → Char → Option Nat
  | [], _ => none
  | x :: xs, c =>
    match find_last_of xs c with
    | some i => some (i + 1)
    | none => if x = c then some 0 else none

/-- The call `s.substr(0, n)` of `std::string`, where `none` is `npos`: the first `n`
characters, the whole string when `n` is `npos`. -/
def substr0 (s : List Char) : Option Nat → List Char
  | some n => s.take n
  | none => s

/-- The local `fname` of `runOnFunction`: the source file name cut at the last dot. -/
def fname (fname_with_ext : List Char) : List Char :=
  let dot_index := find_last_of fname_with_ext '.'
  substr0 fname_with_ext dot_index

/-- The name of the file `output_to_file` opens for the module source file name `src`. -/
def outputFileName (src : String) : String :=
  String.mk (fname src.data ++ ".out".data)

/-- The lookup `m.at(k)`: `none` stands for the `std::out_of_range` exception. -/
def BBMap.lookup (m : BBMap) (k : Nat) : Option SlotSet := m k

/-- The ways a report loop can go wrong: `getName()` called through a null pointer, or
`std::out_of_range` thrown by `at`. -/
inductive Fault where
  | nullDereference
  | outOfRange
  deriving DecidableEq, Repr

/-- The calls `p->getName()` for the elements `p` of a set, as the report loops make them: the
slots whose names are printed, or a fault when the set holds `nullptr`. -/
def getNames (s : SlotSet) : Except Fault (Finset Nat) :=
  if none ∈ s then Except.error Fault.nullDereference else Except.ok (Finset.eraseNone s)

/-- A state has an entry for block `b` in each of the three maps. -/
def HasEntries (st : Maps) (b : Nat) : Prop :=
  (st.bb_uevar_map.lookup b).isSome = true ∧ (st.bb_kill_map.lookup b).isSome = true ∧
    (st.bb_live_out_map.lookup b).isSome = true

/-- No set of block `b` holds `nullptr`. -/
def NoNull (st : Maps) (b : Nat) : Prop :=
  none ∉ st.UEVAR b ∧ none ∉ st.KILL b ∧ none ∉ st.LIVEOUT b

/-- The terminal report for block `b`: `operator[]` on the UEVAR map and `getName()` on every
element found, then the same for the KILL map, then for the LIVEOUT map. -/
def terminalReportBlock (st : Maps) (b : Nat) : Except Fault Maps :=
  let uevar := st.bb_uevar_map.touch b
  match getNames (uevar.read b) with
  | Except.error e => Except.error e
  | Except.ok _ =>
    let kill := st.bb_kill_map.touch b
    match getNames (kill.read b) with
    | Except.error e => Except.error e
    | Except.ok _ =>
      let live := st.bb_live_out_map.touch b
      match getNames (live.read b) with
      | Except.error e => Except.error e
      | Except.ok _ =>
        Except.ok { bb_live_out_map := live, bb_uevar_map := uevar, bb_kill_map := kill }

/-- The terminal report loop over the block handles `bs`; it stops at the first fault. -/
def terminalReportFrom : List Nat → Maps → Except Fault Maps
  | [], st => Except.ok st
  | b :: bs, st =>
    match terminalReportBlock st b with
    | Except.error e => Except.error e
    | Except.ok st1 => terminalReportFrom bs st1

/-- The terminal report loop over the blocks of the function. -/
def terminalReport (F : Function) (st : Maps) : Except Fault Maps :=
  terminalReportFrom (List.range F.length) st

/-- The body of the block loop of `output_to_file` for block `b`: `at` on the UEVAR map and
`getName()` on every element found, then the same for the KILL map, then for the LIVEOUT map.
The result is the three sets of slots whose names are written. -/
def reportBlock (bb_uevar_map bb_kill_map bb_live_out_map : BBMap) (b : Nat) :
    Except Fault (Finset Nat × Finset Nat × Finset Nat) :=
  match bb_uevar_map.lookup b with
  | none => Except.error Fault.outOfRange
  | some su =>
    match getNames su with
    | Except.error e => Except.error e
    | Except.ok nu =>
      match bb_kill_map.lookup b with
      | none => Except.error Fault.outOfRange
      | some sk =>
        match getNames sk with
        | Except.error e => Except.error e
        | Except.ok nk =>
          match bb_live_out_map.lookup b with
          | none => Except.error Fault.outOfRange
          | some sl =>
            match getNames sl with
            | Except.error e => Except.error e
            | Except.ok nl => Except.ok (nu, nk, nl)

/-- The block loop of `output_to_file` over the block handles `bs`; it stops at the first
fault. -/
def reportBlocks (bb_uevar_map bb_kill_map bb_live_out_map : BBMap) :
    List Nat → Except Fault (List (Finset Nat × Finset Nat × Finset Nat))
  | [] => Except.ok []
  | b :: bs =>
    match reportBlock bb_uevar_map bb_kill_map bb_live_out_map b with
    | Except.error e => Except.error e
    | Except.ok r =>
      match reportBlocks bb_uevar_map bb_kill_map bb_live_out_map bs with
      | Except.error e => Except.error e
      | Except.ok rs => Except.ok (r :: rs)

/-- What `output_to_file` writes, block by block, or the fault it stops at. -/
def output_to_file (F : Function) (bb_uevar_map bb_kill_map bb_live_out_map : BBMap) :
    Except Fault (List (Finset Nat × Finset Nat × Finset Nat)) :=
  reportBlocks bb_uevar_map bb_kill_map bb_live_out_map (List.range F.length)

/-- The analysis of a function: STEP 1, STEP 2 with at most `fuel` sweeps, the terminal
report, the file report. `none` means that the sweeps did not suffice; otherwise the result
is the file report or the fault that ended the run. -/
def runOnFunction (F : Function) (fuel : Nat) :
    Option (Except Fault (List (Finset Nat × Finset Nat × Finset Nat))) :=
  match analyse F fuel with
  | none => none
  | some st =>
    match terminalReport F st with
    | Except.error e => some (Except.error e)
    | Except.ok st1 =>
      some (output_to_file F st1.bb_uevar_map st1.bb_kill_map st1.bb_live_out_map)

/-- A function of two blocks without instructions and without edges. -/
def isolatedBlocks : Function :=
  [ { insts := [], succs := [] }, { insts := [], succs := [] } ]

/-! ## Other traversal orders and the pseudocode of the specification -/

/-- One sweep of the solver that handles the blocks in the order `order` instead of the
reverse block order. -/
def sweepIn (F : Function) (order : List Nat) (st : Maps) : Maps × Bool :=
  order.foldl (blockStep F) (st, false)

/-- The loop `while (test)` with sweeps in the order `order`. -/
def whileLoopIn (F : Function) (order : List Nat) : Nat → Maps → Option Maps
  | 0, _ => none
  | fuel + 1, st =>
    let r := sweepIn F order st
    if r.2 then whileLoopIn F order fuel r.1 else some r.1

/-- STEP 2 with sweeps in the order `order`, run on given UEVAR and KILL maps. -/
def solveIn (F : Function) (order : List Nat) (uevar kill : BBMap) (fuel : Nat) :
    Option Maps :=
  whileLoopIn F order fuel (solverInit uevar kill)

/-- An assignment of slot sets to blocks that satisfies the liveness equation at every
block. -/
def IsSolution (F : Function) (U K L : Nat → SlotSet) : Prop :=
  ∀ b, L b = (successors F b).toFinset.biUnion (fun s => (L s \ K s) ∪ U s)

/-- Pseudocode of the specification, inner loop: `new := ∅`, then for each successor `s` of
`b`, `new := new ∪ ((LIVEOUT(s) ∖ KILL(s)) ∪ UEVAR(s))`, reading the map `L` as it is before
`LIVEOUT(b)` is assigned. -/
def specNew (F : Function) (U K L : Nat → SlotSet) (b : Nat) : SlotSet :=
  (successors F b).foldl (fun new s => new ∪ ((L s \ K s) ∪ U s)) ∅

/-- Pseudocode of the specification, body of the block loop: `old := LIVEOUT(b)`, compute
`new`, `LIVEOUT(b) := new`, and `changed := true` when `new` has an element not in `old`. -/
def specBlockStep (F : Function) (U K : Nat → SlotSet) (acc : (Nat → SlotSet) × Bool)
    (b : Nat) : (Nat → SlotSet) × Bool :=
  let old := acc.1 b
  let new := specNew F U K acc.1 b
  (fun c => if c = b then new else acc.1 c, if new \ old = ∅ then acc.2 else true)

/-- Pseudocode of the specification, one pass of `repeat`: `changed := false`, then the blocks
in the fixed order `order`. -/
def specSweep (F : Function) (order : List Nat) (U K L : Nat → SlotSet) :
    (Nat → SlotSet) × Bool :=
  order.foldl (specBlockStep F U K) (L, false)

/-- Pseudocode of the specification, `repeat ... until not changed`, with at most `fuel`
passes. -/
def specLoop (F : Function) (order : List Nat) (U K : Nat → SlotSet) :
    Nat → (Nat → SlotSet) → Option (Nat → SlotSet)
  | 0, _ => none
  | fuel + 1, L =>
    let r := specSweep F order U K L
    if r.2 then specLoop F order U K fuel r.1 else some r.1

/-- Pseudocode of the specification run from all-empty LIVEOUT sets. -/
def specSolve (F : Function) (order : List Nat) (U K : Nat → SlotSet) (fuel : Nat) :
    Option (Nat → SlotSet) :=
  specLoop F order U K fuel (fun _ => ∅)

/-- One block that is its own only successor. -/
def selfLoop : Function := [ { insts := [], succs := [0] } ]

/-- A state, not reached by the solver, in which the self-loop block holds slot `0` in LIVEOUT
with nothing justifying it. -/
def selfLoopState : Maps :=
  { bb_live_out_map := fun b => if b = 0 then some {some 0} else none
    bb_uevar_map := BBMap.empty
    bb_kill_map := BBMap.empty }

/-! ## Map lemmas -/

@[simp]
theorem BBMap.read_empty (k : Nat) : BBMap.empty.read k = ∅ := rfl

@[simp]
theorem BBMap.read_touch (m : BBMap) (k j : Nat) : (m.touch k).read j = m.read j := by
  unfold BBMap.touch BBMap.read
  by_cases h : j = k
  · subst h; simp
  · simp [h]

@[simp]
theorem BBMap.read_write (m : BBMap) (k j : Nat) (s : SlotSet) :
    (m.write k s).read j = if j = k then s else m.read j := by
  unfold BBMap.write BBMap.read
  by_cases h : j = k
  · subst h; simp
  · simp [h]

/-! ## The solver: one successor, one block -/

theorem succStep_UEVAR (b : Nat) (st : Maps) (s c : Nat) :
    (succStep b st s).UEVAR c = st.UEVAR c := by
  simp [succStep, Maps.UEVAR]

theorem succStep_KILL (b : Nat) (st : Maps) (s c : Nat) :
    (succStep b st s).KILL c = st.KILL c := by
  simp [succStep, Maps.KILL]

theorem succStep_LIVEOUT (b : Nat) (st : Maps) (s c : Nat) :
    (succStep b st s).LIVEOUT c =
      if c = b then st.LIVEOUT b ∪ ((st.LIVEOUT s \ st.KILL s) ∪ st.UEVAR s)
      else st.LIVEOUT c := by
  simp [succStep, Maps.LIVEOUT, Maps.KILL, Maps.UEVAR]

theorem succFold_UEVAR (b : Nat) (l : List Nat) (st : Maps) (c : Nat) :
    (l.foldl (succStep b) st).UEVAR c = st.UEVAR c := by
  induction l generalizing st with
  | nil => rfl
  | cons s l ih => rw [List.foldl_cons, ih, succStep_UEVAR]

theorem succFold_KILL (b : Nat) (l : List Nat) (st : Maps) (c : Nat) :
    (l.foldl (succStep b) st).KILL c = st.KILL c := by
  induction l generalizing st with
  | nil => rfl
  | cons s l ih => rw [List.foldl_cons, ih, succStep_KILL]

theorem succFold_LIVEOUT_ne (b : Nat) (l : List Nat) (st : Maps) (c : Nat) (h : c ≠ b) :
    (l.foldl (succStep b) st).LIVEOUT c = st.LIVEOUT c := by
  induction l generalizing st with
  | nil => rfl
  | cons s l ih => rw [List.foldl_cons, ih, succStep_LIVEOUT, if_neg h]

theorem succFold_LIVEOUT_self (b : Nat) (l : List Nat) (st : Maps) (v : AllocaPtr) :
    v ∈ (l.foldl (succStep b) st).LIVEOUT b ↔
      v ∈ st.LIVEOUT b ∨
        ∃ s ∈ l, v ∈ st.UEVAR s ∨ (s ≠ b ∧ v ∈ st.LIVEOUT s ∧ v ∉ st.KILL s) := by
  induction l generalizing st with
  | nil => simp
  | cons s l ih =>
    rw [List.foldl_cons, ih]
    have hU : ∀ c, (succStep b st s).UEVAR c = st.UEVAR c := succStep_UEVAR b st s
    have hK : ∀ c, (succStep b st s).KILL c = st.KILL c := succStep_KILL b st s
    have hL : ∀ c, c ≠ b → (succStep b st s).LIVEOUT c = st.LIVEOUT c := by
      intro c hc; rw [succStep_LIVEOUT, if_neg hc]
    have hb : (succStep b st s).LIVEOUT b =
        st.LIVEOUT b ∪ ((st.LIVEOUT s \ st.KILL s) ∪ st.UEVAR s) := by
      rw [succStep_LIVEOUT, if_pos rfl]
    constructor
    · rintro (h | ⟨s', hs', h⟩)
      · rw [hb] at h
        simp only [Finset.mem_union, Finset.mem_sdiff] at h
        rcases h with h | ⟨h1, h2⟩ | h
        · exact Or.inl h
        · by_cases hsb : s = b
          · subst hsb; exact Or.inl h1
          · exact Or.inr ⟨s, List.mem_cons_self _ _, Or.inr ⟨hsb, h1, h2⟩⟩
        · exact Or.inr ⟨s, List.mem_cons_self _ _, Or.inl h⟩
      · refine Or.inr ⟨s', List.mem_cons_of_mem _ hs', ?_⟩
        rcases h with h | ⟨h1, h2, h3⟩
        · rw [hU] at h; exact Or.inl h
        · rw [hL s' h1] at h2; rw [hK] at h3; exact Or.inr ⟨h1, h2, h3⟩
    · rintro (h | ⟨s', hs', h⟩)
      · left; rw [hb]; exact Finset.mem_union_left _ h
      · rcases List.mem_cons.mp hs' with rfl | hs2
        · left; rw [hb]
          simp only [Finset.mem_union, Finset.mem_sdiff]
          rcases h with h | ⟨_, h2, h3⟩
          · exact Or.inr (Or.inr h)
          · exact Or.inr (Or.inl ⟨h2, h3⟩)
        · right
          refine ⟨s', hs2, ?_⟩
          rcases h with h | ⟨h1, h2, h3⟩
          · rw [hU]; exact Or.inl h
          · rw [hL s' h1, hK]; exact Or.inr ⟨h1, h2, h3⟩

theorem blockStep_UEVAR (F : Function) (acc : Maps × Bool) (b c : Nat) :
    (blockStep F acc b).1.UEVAR c = acc.1.UEVAR c := by
  simp only [blockStep]
  rw [succFold_UEVAR]
  rfl

theorem blockStep_KILL (F : Function) (acc : Maps × Bool) (b c : Nat) :
    (blockStep F acc b).1.KILL c = acc.1.KILL c := by
  simp only [blockStep]
  rw [succFold_KILL]
  rfl

theorem blockStep_LIVEOUT_ne (F : Function) (acc : Maps × Bool) (b c : Nat) (h : c ≠ b) :
    (blockStep F acc b).1.LIVEOUT c = acc.1.LIVEOUT c := by
  simp only [blockStep]
  rw [succFold_LIVEOUT_ne _ _ _ _ h]
  simp [Maps.LIVEOUT, h]

theorem blockStep_LIVEOUT_self (F : Function) (acc : Maps × Bool) (b : Nat) (v : AllocaPtr) :
    v ∈ (blockStep F acc b).1.LIVEOUT b ↔
      Flows F acc.1.UEVAR acc.1.KILL acc.1.LIVEOUT b v := by
  simp only [blockStep]
  rw [succFold_LIVEOUT_self]
  unfold Flows
  have h0 : ∀ c, c ≠ b → ({ acc.1 with bb_live_out_map :=
      (acc.1.bb_live_out_map.touch b).write b ∅ } : Maps).LIVEOUT c = acc.1.LIVEOUT c := by
    intro c hc; simp [Maps.LIVEOUT, hc]
  have h1 : ({ acc.1 with bb_live_out_map :=
      (acc.1.bb_live_out_map.touch b).write b ∅ } : Maps).LIVEOUT b = ∅ := by
    simp [Maps.LIVEOUT]
  rw [h1]
  constructor
  · rintro (h | ⟨s, hs, h⟩)
    · simp at h
    · refine ⟨s, hs, ?_⟩
      rcases h with h | ⟨h2, h3, h4⟩
      · exact Or.inl h
      · rw [h0 s h2] at h3; exact Or.inr ⟨h2, h3, h4⟩
  · rintro ⟨s, hs, h⟩
    refine Or.inr ⟨s, hs, ?_⟩
    rcases h with h | ⟨h2, h3, h4⟩
    · exact Or.inl h
    · rw [h0 s h2]; exact Or.inr ⟨h2, h3, h4⟩

theorem blockStep_flag (F : Function) (acc : Maps × Bool) (b : Nat) :
    (blockStep F acc b).2 = true ↔
      acc.2 = true ∨ ¬ (blockStep F acc b).1.LIVEOUT b ⊆ acc.1.LIVEOUT b := by
  have key : (blockStep F acc b).2 =
      if (blockStep F acc b).1.LIVEOUT b \ acc.1.LIVEOUT b = ∅ then acc.2 else true := by
    simp [blockStep, Maps.LIVEOUT]
  by_cases h : (blockStep F acc b).1.LIVEOUT b ⊆ acc.1.LIVEOUT b
  · rw [if_pos (Finset.sdiff_eq_empty_iff_subset.mpr h)] at key
    rw [key]; simp [h]
  · rw [if_neg (fun e => h (Finset.sdiff_eq_empty_iff_subset.mp e))] at key
    rw [key]; simp [h]

/-! ## The solver: sweeps -/

theorem mem_successors_lt {F : Function} {b s : Nat} (h : s ∈ successors F b) :
    b < F.length := by
  unfold successors at h
  by_contra hb
  rw [List.getElem?_eq_none (Nat.le_of_not_lt hb)] at h
  simp at h

theorem Flows.mono {F : Function} {U K L L' : Nat → SlotSet} {b : Nat} {v : AllocaPtr}
    (h : Flows F U K L b v) (hL : ∀ c, L c ⊆ L' c) : Flows F U K L' b v := by
  obtain ⟨s, hs, h⟩ := h
  refine ⟨s, hs, ?_⟩
  rcases h with h | ⟨h1, h2, h3⟩
  · exact Or.inl h
  · exact Or.inr ⟨h1, hL s h2, h3⟩

theorem blockStep_UEVAR_eq (F : Function) (acc : Maps × Bool) (b : Nat) :
    (blockStep F acc b).1.UEVAR = acc.1.UEVAR :=
  funext (blockStep_UEVAR F acc b)

theorem blockStep_KILL_eq (F : Function) (acc : Maps × Bool) (b : Nat) :
    (blockStep F acc b).1.KILL = acc.1.KILL :=
  funext (blockStep_KILL F acc b)

/-- Recomputing a block from a state satisfying the invariant only adds elements. -/
theorem blockStep_mono {F : Function} {U K : Nat → SlotSet} {acc : Maps × Bool}
    (h : SolverInv F U K acc.1) (b c : Nat) :
    acc.1.LIVEOUT c ⊆ (blockStep F acc b).1.LIVEOUT c := by
  by_cases hc : c = b
  · subst hc
    intro v hv
    rw [blockStep_LIVEOUT_self, h.uevar, h.kill]
    exact h.justified c v hv
  · rw [blockStep_LIVEOUT_ne F acc b c hc]

theorem blockStep_inv {F : Function} {U K : Nat → SlotSet} {acc : Maps × Bool}
    (h : SolverInv F U K acc.1) (b : Nat) : SolverInv F U K (blockStep F acc b).1 := by
  refine ⟨(blockStep_UEVAR_eq F acc b).trans h.uevar, (blockStep_KILL_eq F acc b).trans h.kill,
    ?_⟩
  intro c v hv
  have hm := blockStep_mono h b
  by_cases hc : c = b
  · subst hc
    rw [blockStep_LIVEOUT_self, h.uevar, h.kill] at hv
    exact hv.mono hm
  · rw [blockStep_LIVEOUT_ne F acc b c hc] at hv
    exact (h.justified c v hv).mono hm

theorem blockFold_inv {F : Function} {U K : Nat → SlotSet} (bs : List Nat) :
    ∀ acc : Maps × Bool, SolverInv F U K acc.1 →
      SolverInv F U K (bs.foldl (blockStep F) acc).1 := by
  induction bs with
  | nil => intro acc h; exact h
  | cons b bs ih => intro acc h; exact ih _ (blockStep_inv h b)

theorem blockFold_mono {F : Function} {U K : Nat → SlotSet} (bs : List Nat) :
    ∀ acc : Maps × Bool, SolverInv F U K acc.1 →
      ∀ c, acc.1.LIVEOUT c ⊆ (bs.foldl (blockStep F) acc).1.LIVEOUT c := by
  induction bs with
  | nil => intro acc _ c; exact Finset.Subset.refl _
  | cons b bs ih =>
    intro acc h c
    exact (blockStep_mono h b c).trans (ih _ (blockStep_inv h b) c)

/-- A predicate on (block, slot) closed under the transfer rule contains whatever a block
recomputation produces. -/
theorem blockStep_closed {F : Function} {U K : Nat → SlotSet} {acc : Maps × Bool}
    (h : SolverInv F U K acc.1) (P : Nat → AllocaPtr → Prop)
    (hP : ∀ b s v, s ∈ successors F b → (v ∈ U s ∨ (P s v ∧ v ∉ K s)) → P b v)
    (h0 : ∀ c v, v ∈ acc.1.LIVEOUT c → P c v) (b : Nat) :
    ∀ c v, v ∈ (blockStep F acc b).1.LIVEOUT c → P c v := by
  intro c v hv
  by_cases hc : c = b
  · subst hc
    rw [blockStep_LIVEOUT_self, h.uevar, h.kill] at hv
    obtain ⟨s, hs, hv⟩ := hv
    refine hP c s v hs ?_
    rcases hv with hv | ⟨_, h2, h3⟩
    · exact Or.inl hv
    · exact Or.inr ⟨h0 s v h2, h3⟩
  · rw [blockStep_LIVEOUT_ne F acc b c hc] at hv
    exact h0 c v hv

theorem blockFold_closed {F : Function} {U K : Nat → SlotSet} (P : Nat → AllocaPtr → Prop)
    (hP : ∀ b s v, s ∈ successors F b → (v ∈ U s ∨ (P s v ∧ v ∉ K s)) → P b v)
    (bs : List Nat) :
    ∀ acc : Maps × Bool, SolverInv F U K acc.1 → (∀ c v, v ∈ acc.1.LIVEOUT c → P c v) →
      ∀ c v, v ∈ (bs.foldl (blockStep F) acc).1.LIVEOUT c → P c v := by
  induction bs with
  | nil => intro acc _ h0; exact h0
  | cons b bs ih =>
    intro acc h h0
    exact ih _ (blockStep_inv h b) (blockStep_closed h P hP h0 b)

/-- When the flag is still false after a run of block steps, nothing changed and every block
handled satisfies its equation. -/
theorem blockFold_flag_false {F : Function} {U K : Nat → SlotSet} (bs : List Nat) :
    ∀ acc : Maps × Bool, SolverInv F U K acc.1 →
      (bs.foldl (blockStep F) acc).2 = false →
      acc.2 = false ∧ (bs.foldl (blockStep F) acc).1.LIVEOUT = acc.1.LIVEOUT ∧
        ∀ b ∈ bs, ∀ v, v ∈ acc.1.LIVEOUT b ↔ Flows F U K acc.1.LIVEOUT b v := by
  induction bs with
  | nil => intro acc _ hf; exact ⟨hf, rfl, by simp⟩
  | cons b bs ih =>
    intro acc h hf
    rw [List.foldl_cons] at hf ⊢
    obtain ⟨h1, h2, h3⟩ := ih _ (blockStep_inv h b) hf
    have hflag := blockStep_flag F acc b
    have hno : ¬ (acc.2 = true ∨ ¬ (blockStep F acc b).1.LIVEOUT b ⊆ acc.1.LIVEOUT b) := by
      rw [← hflag, h1]; simp
    have hsub : (blockStep F acc b).1.LIVEOUT b ⊆ acc.1.LIVEOUT b := by
      by_contra hc; exact hno (Or.inr hc)
    have hacc : acc.2 = false := by
      cases hb : acc.2
      · rfl
      · exact absurd (Or.inl hb) hno
    have hEq : (blockStep F acc b).1.LIVEOUT = acc.1.LIVEOUT := by
      funext c
      by_cases hc : c = b
      · subst hc
        exact Finset.Subset.antisymm hsub (blockStep_mono h c c)
      · exact blockStep_LIVEOUT_ne F acc b c hc
    refine ⟨hacc, h2.trans hEq, ?_⟩
    intro b' hb' v
    rcases List.mem_cons.mp hb' with rfl | hb2
    · rw [← congrFun hEq b', blockStep_LIVEOUT_self, h.uevar, h.kill]
    · have := h3 b' hb2 v
      rw [hEq] at this
      exact this

/-- When the flag is set by a run of block steps, some handled block gained an element. -/
theorem blockFold_flag_true {F : Function} {U K : Nat → SlotSet} (bs : List Nat) :
    ∀ acc : Maps × Bool, SolverInv F U K acc.1 →
      (bs.foldl (blockStep F) acc).2 = true →
      acc.2 = true ∨ ∃ b ∈ bs, acc.1.LIVEOUT b ⊂ (bs.foldl (blockStep F) acc).1.LIVEOUT b := by
  induction bs with
  | nil => intro acc _ hf; exact Or.inl hf
  | cons b bs ih =>
    intro acc h hf
    rw [List.foldl_cons] at hf ⊢
    rcases ih _ (blockStep_inv h b) hf with h1 | ⟨b', hb', hlt⟩
    · rcases (blockStep_flag F acc b).mp h1 with h2 | h2
      · exact Or.inl h2
      · right
        refine ⟨b, List.mem_cons_self _ _, ?_⟩
        have hm := blockFold_mono bs _ (blockStep_inv h b) b
        refine ⟨(blockStep_mono h b b).trans hm, ?_⟩
        intro hsub
        exact h2 (hm.trans hsub)
    · right
      refine ⟨b', List.mem_cons_of_mem _ hb', ?_⟩
      exact lt_of_le_of_lt (blockStep_mono h b b') hlt

theorem sweep_inv {F : Function} {U K : Nat → SlotSet} {st : Maps} (h : SolverInv F U K st) :
    SolverInv F U K (sweep F st).1 :=
  blockFold_inv _ (st, false) h

theorem sweep_mono {F : Function} {U K : Nat → SlotSet} {st : Maps} (h : SolverInv F U K st)
    (c : Nat) : st.LIVEOUT c ⊆ (sweep F st).1.LIVEOUT c :=
  blockFold_mono _ (st, false) h c

theorem sweep_closed {F : Function} {U K : Nat → SlotSet} {st : Maps} (h : SolverInv F U K st)
    (P : Nat → AllocaPtr → Prop)
    (hP : ∀ b s v, s ∈ successors F b → (v ∈ U s ∨ (P s v ∧ v ∉ K s)) → P b v)
    (h0 : ∀ c v, v ∈ st.LIVEOUT c → P c v) :
    ∀ c v, v ∈ (sweep F st).1.LIVEOUT c → P c v :=
  blockFold_closed P hP _ (st, false) h h0

/-- A sweep that leaves the flag false changed nothing, and the state solves the equations. -/
theorem sweep_flag_false {F : Function} {U K : Nat → SlotSet} {st : Maps}
    (h : SolverInv F U K st) (hf : (sweep F st).2 = false) :
    (sweep F st).1.LIVEOUT = st.LIVEOUT ∧
      ∀ b v, v ∈ st.LIVEOUT b ↔ Flows F U K st.LIVEOUT b v := by
  obtain ⟨_, h2, h3⟩ := blockFold_flag_false _ (st, false) h hf
  refine ⟨h2, ?_⟩
  intro b v
  by_cases hb : b < F.length
  · exact h3 b (by simp [hb]) v
  · constructor
    · exact h.justified b v
    · rintro ⟨s, hs, _⟩
      exact absurd (mem_successors_lt hs) hb

/-- A sweep that sets the flag strictly enlarges the LIVEOUT set of a block of the function. -/
theorem sweep_flag_true {F : Function} {U K : Nat → SlotSet} {st : Maps}
    (h : SolverInv F U K st) (hf : (sweep F st).2 = true) :
    ∃ b, b < F.length ∧ st.LIVEOUT b ⊂ (sweep F st).1.LIVEOUT b := by
  rcases blockFold_flag_true _ (st, false) h hf with h1 | ⟨b, hb, hlt⟩
  · simp at h1
  · exact ⟨b, by simpa using hb, hlt⟩

theorem sweep_mass_lt {F : Function} {U K : Nat → SlotSet} {st : Maps}
    (h : SolverInv F U K st) (hf : (sweep F st).2 = true) :
    mass F st < mass F (sweep F st).1 := by
  obtain ⟨b, hb, hlt⟩ := sweep_flag_true h hf
  unfold mass
  apply Finset.sum_lt_sum
  · intro c _
    exact Finset.card_le_card (sweep_mono h c)
  · exact ⟨b, Finset.mem_range.mpr hb, Finset.card_lt_card hlt⟩

theorem mass_le (F : Function) (st : Maps) (X : SlotSet) (h : ∀ c, st.LIVEOUT c ⊆ X) :
    mass F st ≤ F.length * X.card := by
  unfold mass
  calc ∑ b in Finset.range F.length, (st.LIVEOUT b).card
      ≤ ∑ _b in Finset.range F.length, X.card :=
        Finset.sum_le_sum (fun c _ => Finset.card_le_card (h c))
    _ = F.length * X.card := by simp

/-- Membership in the slot universe is closed under the transfer rule. -/
theorem slotUniverse_closed (F : Function) (U K : Nat → SlotSet) :
    ∀ b s v, s ∈ successors F b →
      (v ∈ U s ∨ (v ∈ slotUniverse F U ∧ v ∉ K s)) → v ∈ slotUniverse F U := by
  intro b s v hs h
  rcases h with h | ⟨h, _⟩
  · unfold slotUniverse
    simp only [Finset.mem_biUnion, Finset.mem_range, List.mem_toFinset]
    exact ⟨b, mem_successors_lt hs, s, hs, h⟩
  · exact h

theorem solverInit_inv (F : Function) (uevar kill : BBMap) :
    SolverInv F uevar.read kill.read (solverInit uevar kill) := by
  refine ⟨rfl, rfl, ?_⟩
  intro b v hv
  simp [solverInit, Maps.LIVEOUT] at hv

theorem solverInit_LIVEOUT (uevar kill : BBMap) (b : Nat) :
    (solverInit uevar kill).LIVEOUT b = ∅ := rfl

/-! ## The solver: the loop -/

/-- What holds of the state the loop exits in. -/
theorem whileLoop_exit {F : Function} {U K : Nat → SlotSet} :
    ∀ (fuel : Nat) (st st' : Maps), SolverInv F U K st → whileLoop F fuel st = some st' →
      SolverInv F U K st' ∧ (∀ c, st.LIVEOUT c ⊆ st'.LIVEOUT c) ∧
        (sweep F st').2 = false ∧
        ∀ b v, v ∈ st'.LIVEOUT b ↔ Flows F U K st'.LIVEOUT b v := by
  intro fuel
  induction fuel with
  | zero => intro st st' _ h; simp [whileLoop] at h
  | succ n ih =>
    intro st st' h hrun
    simp only [whileLoop] at hrun
    by_cases hf : (sweep F st).2 = true
    · rw [if_pos hf] at hrun
      obtain ⟨h1, h2, h3⟩ := ih _ _ (sweep_inv h) hrun
      exact ⟨h1, fun c => (sweep_mono h c).trans (h2 c), h3⟩
    · rw [if_neg hf] at hrun
      have hst : (sweep F st).1 = st' := Option.some.inj hrun
      have hf' : (sweep F st).2 = false := by simpa using hf
      obtain ⟨e, hfix⟩ := sweep_flag_false h hf'
      have hinv : SolverInv F U K st' := hst ▸ sweep_inv h
      have hL : st'.LIVEOUT = st.LIVEOUT := hst ▸ e
      have hfix' : ∀ b v, v ∈ st'.LIVEOUT b ↔ Flows F U K st'.LIVEOUT b v := by
        rw [hL]; exact hfix
      refine ⟨hinv, fun c => by rw [hL], ?_, hfix'⟩
      cases hs : (sweep F st').2
      · rfl
      · obtain ⟨b, _, hlt⟩ := sweep_flag_true hinv hs
        exfalso
        apply hlt.2
        intro v hv
        have hc := sweep_closed hinv (fun c w => w ∈ st'.LIVEOUT c)
          (fun b s w hs hw => by
            by_cases hsb : s = b
            · rcases hw with hw | ⟨hw, _⟩
              · exact (hfix' b w).mpr ⟨s, hs, Or.inl hw⟩
              · subst hsb; exact hw
            · rcases hw with hw | ⟨hw, hk⟩
              · exact (hfix' b w).mpr ⟨s, hs, Or.inl hw⟩
              · exact (hfix' b w).mpr ⟨s, hs, Or.inr ⟨hsb, hw, hk⟩⟩)
          (fun _ _ hw => hw)
        exact hc b v hv

/-- A predicate closed under the transfer rule contains the final LIVEOUT. -/
theorem whileLoop_closed {F : Function} {U K : Nat → SlotSet} (P : Nat → AllocaPtr → Prop)
    (hP : ∀ b s v, s ∈ successors F b → (v ∈ U s ∨ (P s v ∧ v ∉ K s)) → P b v) :
    ∀ (fuel : Nat) (st st' : Maps), SolverInv F U K st → whileLoop F fuel st = some st' →
      (∀ c v, v ∈ st.LIVEOUT c → P c v) → ∀ c v, v ∈ st'.LIVEOUT c → P c v := by
  intro fuel
  induction fuel with
  | zero => intro st st' _ h; simp [whileLoop] at h
  | succ n ih =>
    intro st st' h hrun h0
    simp only [whileLoop] at hrun
    by_cases hf : (sweep F st).2 = true
    · rw [if_pos hf] at hrun
      exact ih _ _ (sweep_inv h) hrun (sweep_closed h P hP h0)
    · rw [if_neg hf] at hrun
      have hst : (sweep F st).1 = st' := Option.some.inj hrun
      exact hst ▸ sweep_closed h P hP h0

/-- The loop exits when the fuel exceeds the number of facts that can still be added. -/
theorem whileLoop_terminates {F : Function} {U K : Nat → SlotSet} (X : SlotSet)
    (hX : ∀ b s v, s ∈ successors F b → (v ∈ U s ∨ (v ∈ X ∧ v ∉ K s)) → v ∈ X) :
    ∀ (fuel : Nat) (st : Maps), SolverInv F U K st → (∀ c, st.LIVEOUT c ⊆ X) →
      F.length * X.card < mass F st + fuel → ∃ st', whileLoop F fuel st = some st' := by
  intro fuel
  induction fuel with
  | zero =>
    intro st _ hsub hlt
    exact absurd (mass_le F st X hsub) (by omega)
  | succ n ih =>
    intro st h hsub hlt
    simp only [whileLoop]
    by_cases hf : (sweep F st).2 = true
    · rw [if_pos hf]
      have hm := sweep_mass_lt h hf
      refine ih _ (sweep_inv h) ?_ (by omega)
      intro c v hv
      exact sweep_closed h (fun _ w => w ∈ X) hX (fun c w hw => hsub c hw) c v hv
    · rw [if_neg hf]
      exact ⟨_, rfl⟩

/-- Running with more fuel than needed gives the same result. -/
theorem whileLoop_fuel_mono (F : Function) :
    ∀ (fuel : Nat) (st st' : Maps), whileLoop F fuel st = some st' →
      ∀ k, whileLoop F (fuel + k) st = some st' := by
  intro fuel
  induction fuel with
  | zero => intro st st' h; simp [whileLoop] at h
  | succ n ih =>
    intro st st' h k
    rw [Nat.add_right_comm]
    simp only [whileLoop] at h ⊢
    by_cases hf : (sweep F st).2 = true
    · rw [if_pos hf] at h ⊢
      exact ih _ _ h k
    · rw [if_neg hf] at h ⊢
      exact h

theorem sweeps_inv {F : Function} {U K : Nat → SlotSet} {st : Maps} (h : SolverInv F U K st) :
    ∀ i, SolverInv F U K (sweeps F i st) := by
  intro i
  induction i with
  | zero => exact h
  | succ i ih => exact sweep_inv ih

theorem midSweep_inv {F : Function} {U K : Nat → SlotSet} {st : Maps}
    (h : SolverInv F U K st) (j : Nat) : SolverInv F U K (midSweep F j st).1 :=
  blockFold_inv _ (st, false) h

/-- The solver exits when given `F.length * (slotUniverse F U).card + 1` sweeps. -/
theorem solve_terminates_within (F : Function) (uevar kill : BBMap) :
    ∃ st, solve F uevar kill (F.length * (slotUniverse F uevar.read).card + 1) = some st := by
  apply whileLoop_terminates (slotUniverse F uevar.read)
    (slotUniverse_closed F uevar.read kill.read) _ _ (solverInit_inv F uevar kill)
  · intro c
    rw [solverInit_LIVEOUT]
    exact Finset.empty_subset _
  · omega

theorem sweeps_succ_shift (F : Function) :
    ∀ (i : Nat) (st : Maps), sweeps F (i + 1) st = sweeps F i (sweep F st).1 := by
  intro i
  induction i with
  | zero => intro st; rfl
  | succ i ih =>
    intro st
    show (sweep F (sweeps F (i + 1) st)).1 = (sweep F (sweeps F i (sweep F st).1)).1
    rw [ih]

/-- The loop returns the state after the first sweep that leaves the flag false. -/
theorem whileLoop_eq_sweeps (F : Function) :
    ∀ (fuel : Nat) (st st' : Maps), whileLoop F fuel st = some st' →
      ∃ i, i < fuel ∧ st' = sweeps F (i + 1) st ∧ (sweep F (sweeps F i st)).2 = false ∧
        ∀ k, k < i → (sweep F (sweeps F k st)).2 = true := by
  intro fuel
  induction fuel with
  | zero => intro st st' h; simp [whileLoop] at h
  | succ n ih =>
    intro st st' h
    simp only [whileLoop] at h
    by_cases hf : (sweep F st).2 = true
    · rw [if_pos hf] at h
      obtain ⟨i, hi, h1, h2, h3⟩ := ih _ _ h
      refine ⟨i + 1, by omega, ?_, ?_, ?_⟩
      · rw [sweeps_succ_shift]; exact h1
      · rw [sweeps_succ_shift]; exact h2
      · intro k hk
        cases k with
        | zero => exact hf
        | succ k => rw [sweeps_succ_shift]; exact h3 k (by omega)
    · rw [if_neg hf] at h
      refine ⟨0, by omega, (Option.some.inj h).symm, by simpa using hf, ?_⟩
      intro k hk
      omega

/-! ## Claims about the solver -/

/-- C1 (fixpoint correctness): when the solver loop exits, for every block `b` the set
`LIVEOUT(b)` equals the union, over the successors `s` of `b`, of
`(LIVEOUT(s) minus KILL(s)) union UEVAR(s)`, for every control-flow graph and every UEVAR/KILL
assignment, self-loops included. -/
theorem fixpoint_correct (F : Function) (uevar kill : BBMap) (fuel : Nat) (st : Maps)
    (h : solve F uevar kill fuel = some st) (b : Nat) :
    st.LIVEOUT b =
      (successors F b).toFinset.biUnion
        (fun s => (st.LIVEOUT s \ kill.read s) ∪ uevar.read s) := by
  obtain ⟨_, _, _, hfix⟩ := whileLoop_exit fuel _ _ (solverInit_inv F uevar kill) h
  ext v
  rw [hfix b v]
  simp only [Finset.mem_biUnion, List.mem_toFinset, Finset.mem_union, Finset.mem_sdiff]
  constructor
  · rintro ⟨s, hs, hv⟩
    refine ⟨s, hs, ?_⟩
    rcases hv with hv | ⟨_, h2, h3⟩
    · exact Or.inr hv
    · exact Or.inl ⟨h2, h3⟩
  · rintro ⟨s, hs, hv⟩
    rcases hv with ⟨h2, h3⟩ | hv
    · by_cases hsb : s = b
      · subst hsb; exact (hfix s v).mp h2
      · exact ⟨s, hs, Or.inr ⟨hsb, h2, h3⟩⟩
    · exact ⟨s, hs, Or.inl hv⟩

/-- Witness for C1 on the loop graph `B0 → B1`, `B1 → B1`, `B1 → B2`. -/
theorem fixpoint_correct_witness :
    ∃ st, solve loopCFG loopUEVAR BBMap.empty 3 = some st ∧
      st.LIVEOUT 1 = (successors loopCFG 1).toFinset.biUnion
        (fun s => (st.LIVEOUT s \ BBMap.empty.read s) ∪ loopUEVAR.read s) :=
  ⟨_, rfl, fixpoint_correct loopCFG loopUEVAR BBMap.empty 3 _ rfl 1⟩

/-- Extending a live path at the front by a block that does not kill the slot. -/
theorem LivePath.cons {F : Function} {U K : Nat → SlotSet} {v : AllocaPtr} {b s : Nat}
    {p : List Nat} (hs : s ∈ successors F b) (hk : v ∉ K s) (hp : LivePath F U K v s p) :
    LivePath F U K v b (s :: p) := by
  obtain ⟨hc, ⟨bn, hl, hu⟩, hd⟩ := hp
  have hne : p ≠ [] := by
    intro e; subst e; simp at hl
  obtain ⟨x, q, rfl⟩ := List.exists_cons_of_ne_nil hne
  refine ⟨List.Chain.cons hs hc, ⟨bn, ?_, hu⟩, ?_⟩
  · rw [List.getLast?_cons_cons]; exact hl
  · intro y hy
    rw [List.dropLast_cons₂] at hy
    rcases List.mem_cons.mp hy with rfl | hy'
    · exact hk
    · exact hd y hy'

/-- The one-edge live path. -/
theorem LivePath.single {F : Function} {U K : Nat → SlotSet} {v : AllocaPtr} {b s : Nat}
    (hs : s ∈ successors F b) (hu : v ∈ U s) : LivePath F U K v b [s] :=
  ⟨List.Chain.cons hs List.Chain.nil, ⟨s, rfl, hu⟩, by simp⟩

/-- A solution of the equations contains every slot that has a live path. -/
theorem LivePath.mem_of_fix {F : Function} {U K L : Nat → SlotSet} {v : AllocaPtr}
    (hfix : ∀ b w, w ∈ L b ↔ Flows F U K L b w) :
    ∀ (p : List Nat) (b : Nat), LivePath F U K v b p → v ∈ L b := by
  intro p
  induction p with
  | nil =>
    rintro b ⟨_, ⟨bn, hl, _⟩, _⟩
    simp at hl
  | cons s p ih =>
    rintro b ⟨hc, ⟨bn, hl, hu⟩, hd⟩
    have hs : s ∈ successors F b := (List.chain_cons.mp hc).1
    have hc' := (List.chain_cons.mp hc).2
    cases p with
    | nil =>
      simp at hl
      subst hl
      exact (hfix b v).mpr ⟨s, hs, Or.inl hu⟩
    | cons x q =>
      rw [List.getLast?_cons_cons] at hl
      rw [List.dropLast_cons₂] at hd
      have hvs : v ∈ L s :=
        ih s ⟨hc', ⟨bn, hl, hu⟩, fun y hy => hd y (List.mem_cons_of_mem _ hy)⟩
      have hk : v ∉ K s := hd s (List.mem_cons_self _ _)
      by_cases hsb : s = b
      · subst hsb; exact hvs
      · exact (hfix b v).mpr ⟨s, hs, Or.inr ⟨hsb, hvs, hk⟩⟩

/-- C2 (path characterisation): when the solver loop exits, a slot `v` is in `LIVEOUT(b)` if
and only if there is a path `b → b1 → ... → bn` with `n ≥ 1` along successor edges such that
`v` is in `UEVAR(bn)` and `v` is not in `KILL(bi)` for the blocks `b1, ..., b(n-1)` strictly
between. -/
theorem liveout_iff_path (F : Function) (uevar kill : BBMap) (fuel : Nat) (st : Maps)
    (h : solve F uevar kill fuel = some st) (b : Nat) (v : AllocaPtr) :
    v ∈ st.LIVEOUT b ↔ ∃ p : List Nat, LivePath F uevar.read kill.read v b p := by
  have hinit := solverInit_inv F uevar kill
  obtain ⟨_, _, _, hfix⟩ := whileLoop_exit fuel _ _ hinit h
  constructor
  · intro hv
    refine whileLoop_closed (fun c w => ∃ p : List Nat, LivePath F uevar.read kill.read w c p)
      ?_ fuel _ _ hinit h ?_ b v hv
    · intro c s w hs hw
      rcases hw with hw | ⟨⟨p, hp⟩, hk⟩
      · exact ⟨[s], LivePath.single hs hw⟩
      · exact ⟨s :: p, LivePath.cons hs hk hp⟩
    · intro c w hw
      rw [solverInit_LIVEOUT] at hw
      simp at hw
  · rintro ⟨p, hp⟩
    exact LivePath.mem_of_fix hfix p b hp

/-- Witness for C2 on the loop graph: slot `0` is live out of `B0` and the path `B0 → B1`
shows it. -/
theorem liveout_iff_path_witness :
    ∃ st, solve loopCFG loopUEVAR BBMap.empty 3 = some st ∧
      (some 0 ∈ st.LIVEOUT 0 ↔
        ∃ p : List Nat, LivePath loopCFG loopUEVAR.read BBMap.empty.read (some 0) 0 p) :=
  ⟨_, rfl, liveout_iff_path loopCFG loopUEVAR BBMap.empty 3 _ rfl 0 (some 0)⟩

/-- C3 (termination): for every control-flow graph and every UEVAR/KILL assignment the
`while (test)` loop exits after finitely many sweeps: some number of sweeps makes the solver
return a final state. -/
theorem solver_terminates (F : Function) (uevar kill : BBMap) :
    ∃ fuel st, solve F uevar kill fuel = some st :=
  ⟨_, solve_terminates_within F uevar kill⟩

/-- C4 (monotonicity): in the state reached from empty LIVEOUT sets after `i` complete sweeps
and `j` further block recomputations, recomputing any block `b` yields a superset of every
LIVEOUT set held before; the flag is set by that recomputation exactly when it was already set
or `LIVEOUT(b)` changed; and `LIVEOUT` after sweep `i` is contained in `LIVEOUT` after sweep
`i + 1`. -/
theorem liveout_monotone (F : Function) (uevar kill : BBMap) (i j b c : Nat) :
    (midSweep F j (sweeps F i (solverInit uevar kill))).1.LIVEOUT c ⊆
        (blockStep F (midSweep F j (sweeps F i (solverInit uevar kill))) b).1.LIVEOUT c ∧
      ((blockStep F (midSweep F j (sweeps F i (solverInit uevar kill))) b).2 = true ↔
        (midSweep F j (sweeps F i (solverInit uevar kill))).2 = true ∨
          (blockStep F (midSweep F j (sweeps F i (solverInit uevar kill))) b).1.LIVEOUT b ≠
            (midSweep F j (sweeps F i (solverInit uevar kill))).1.LIVEOUT b) ∧
      (sweeps F i (solverInit uevar kill)).LIVEOUT c ⊆
        (sweeps F (i + 1) (solverInit uevar kill)).LIVEOUT c := by
  have hi := sweeps_inv (solverInit_inv F uevar kill) i
  have hj := midSweep_inv hi j
  refine ⟨blockStep_mono hj b c, ?_, sweep_mono hi c⟩
  rw [blockStep_flag]
  have hm := blockStep_mono hj b b
  constructor
  · rintro (h | h)
    · exact Or.inl h
    · exact Or.inr (fun e => h (e ▸ Finset.Subset.refl _))
  · rintro (h | h)
    · exact Or.inl h
    · exact Or.inr (fun hsub => h (Finset.Subset.antisymm hsub hm))

/-! ## Classification: one instruction -/

theorem binaryOperand_KILL (b : Nat) (st : Maps) (a : AllocaPtr) (c : Nat) :
    (binaryOperand b st a).KILL c = st.KILL c := by
  unfold binaryOperand
  by_cases h1 : a.isSome = true
  · by_cases h2 : a ∈ st.bb_kill_map.read b
    · simp [h1, h2, Maps.KILL]
    · simp [h1, h2, Maps.KILL]
  · simp [h1]

theorem binaryOperand_UEVAR (b : Nat) (st : Maps) (a : AllocaPtr) (c : Nat) :
    (binaryOperand b st a).UEVAR c =
      if c = b ∧ a.isSome = true ∧ a ∉ st.KILL b then insert a (st.UEVAR b) else st.UEVAR c := by
  unfold binaryOperand
  by_cases h1 : a.isSome = true
  · by_cases h2 : a ∈ st.bb_kill_map.read b
    · simp [h1, h2, Maps.UEVAR, Maps.KILL]
    · by_cases hc : c = b
      · simp [h1, h2, Maps.UEVAR, Maps.KILL, hc]
      · simp [h1, h2, Maps.UEVAR, Maps.KILL, hc]
  · simp [h1]

theorem insertUEVar_KILL (b : Nat) (st : Maps) (a : AllocaPtr) (c : Nat) :
    (insertUEVar b st a).KILL c = st.KILL c := rfl

theorem insertUEVar_UEVAR (b : Nat) (st : Maps) (a : AllocaPtr) (c : Nat) :
    (insertUEVar b st a).UEVAR c = if c = b then insert a (st.UEVAR b) else st.UEVAR c := by
  simp [insertUEVar, Maps.UEVAR]

theorem loadOperand_KILL (b : Nat) (st : Maps) (v : Value) (c : Nat) :
    (loadOperand b st v).KILL c = st.KILL c := by
  unfold loadOperand
  cases asLoad v <;> rfl

theorem loadOperand_UEVAR (b : Nat) (st : Maps) (v : Value) (c : Nat) :
    (loadOperand b st v).UEVAR c =
      match asLoad v with
      | some p => if c = b then insert (asAlloca p) (st.UEVAR b) else st.UEVAR c
      | none => st.UEVAR c := by
  unfold loadOperand
  cases asLoad v with
  | none => rfl
  | some p => exact insertUEVar_UEVAR b st _ c

theorem getAllocaInstFromBinaryOp_fst (op0 op1 : Value) (s : Nat) :
    (getAllocaInstFromBinaryOp op0 op1).1 = some s ↔
      op0 = Value.LoadInst (Value.AllocaInst s) := by
  cases op0 with
  | AllocaInst a => simp [getAllocaInstFromBinaryOp, asLoad]
  | Other => simp [getAllocaInstFromBinaryOp, asLoad]
  | LoadInst p =>
    cases p <;> simp [getAllocaInstFromBinaryOp, asLoad, asAlloca]

theorem getAllocaInstFromBinaryOp_snd (op0 op1 : Value) (s : Nat) :
    (getAllocaInstFromBinaryOp op0 op1).2 = some s ↔
      op1 = Value.LoadInst (Value.AllocaInst s) := by
  cases op1 with
  | AllocaInst a => simp [getAllocaInstFromBinaryOp, asLoad]
  | Other => simp [getAllocaInstFromBinaryOp, asLoad]
  | LoadInst p =>
    cases p <;> simp [getAllocaInstFromBinaryOp, asLoad, asAlloca]

theorem classifyInst_binary_KILL (b : Nat) (st : Maps) (opc : BinaryOps) (op0 op1 : Value)
    (c : Nat) : (classifyInst b st (Instruction.BinaryOp opc op0 op1)).KILL c = st.KILL c := by
  simp only [classifyInst]
  split_ifs
  · rw [binaryOperand_KILL, binaryOperand_KILL]
  · rfl

theorem classifyInst_binary_UEVAR_ne (b : Nat) (st : Maps) (opc : BinaryOps) (op0 op1 : Value)
    (c : Nat) (hc : c ≠ b) :
    (classifyInst b st (Instruction.BinaryOp opc op0 op1)).UEVAR c = st.UEVAR c := by
  simp only [classifyInst]
  split_ifs
  · rw [binaryOperand_UEVAR, if_neg (fun h => hc h.1), binaryOperand_UEVAR,
      if_neg (fun h => hc h.1)]
  · rfl

theorem classifyInst_binary_UEVAR (b : Nat) (st : Maps) (opc : BinaryOps) (op0 op1 : Value)
    (hop : supportedOp opc = true) (p : AllocaPtr) :
    p ∈ (classifyInst b st (Instruction.BinaryOp opc op0 op1)).UEVAR b ↔
      p ∈ st.UEVAR b ∨ ∃ s, p = some s ∧
        (op0 = Value.LoadInst (Value.AllocaInst s) ∨
          op1 = Value.LoadInst (Value.AllocaInst s)) ∧ some s ∉ st.KILL b := by
  simp only [classifyInst, hop, if_true]
  rw [binaryOperand_UEVAR, binaryOperand_KILL]
  have e1 := getAllocaInstFromBinaryOp_fst op0 op1
  have e2 := getAllocaInstFromBinaryOp_snd op0 op1
  generalize (getAllocaInstFromBinaryOp op0 op1).1 = a1 at e1
  generalize (getAllocaInstFromBinaryOp op0 op1).2 = a2 at e2
  have hb1 : (binaryOperand b st a1).UEVAR b =
      if a1.isSome = true ∧ a1 ∉ st.KILL b then insert a1 (st.UEVAR b) else st.UEVAR b := by
    rw [binaryOperand_UEVAR]; simp
  rw [hb1]
  constructor
  · intro h
    split_ifs at h with h2 h1 h1
    · simp only [Finset.mem_insert] at h
      rcases h with rfl | rfl | h
      · obtain ⟨s, hs⟩ := Option.isSome_iff_exists.mp h2.2.1
        exact Or.inr ⟨s, hs, Or.inr ((e2 s).mp hs), hs ▸ h2.2.2⟩
      · obtain ⟨s, hs⟩ := Option.isSome_iff_exists.mp h1.1
        exact Or.inr ⟨s, hs, Or.inl ((e1 s).mp hs), hs ▸ h1.2⟩
      · exact Or.inl h
    · simp only [Finset.mem_insert] at h
      rcases h with rfl | h
      · obtain ⟨s, hs⟩ := Option.isSome_iff_exists.mp h2.2.1
        exact Or.inr ⟨s, hs, Or.inr ((e2 s).mp hs), hs ▸ h2.2.2⟩
      · exact Or.inl h
    · simp only [Finset.mem_insert] at h
      rcases h with rfl | h
      · obtain ⟨s, hs⟩ := Option.isSome_iff_exists.mp h1.1
        exact Or.inr ⟨s, hs, Or.inl ((e1 s).mp hs), hs ▸ h1.2⟩
      · exact Or.inl h
    · exact Or.inl h
  · rintro (h | ⟨s, rfl, hop, hk⟩)
    · split_ifs <;> simp [h]
    · rcases hop with h0 | h1
      · have ha1 : a1 = some s := (e1 s).mpr h0
        subst ha1
        split_ifs <;> simp_all
      · have ha2 : a2 = some s := (e2 s).mpr h1
        subst ha2
        split_ifs <;> simp_all

theorem loadOperand_UEVAR_mono (b : Nat) (st : Maps) (v : Value) (c : Nat) :
    st.UEVAR c ⊆ (loadOperand b st v).UEVAR c := by
  rw [loadOperand_UEVAR]
  cases asLoad v with
  | none => exact Finset.Subset.refl _
  | some p =>
    by_cases hc : c = b
    · subst hc; simp only [if_true]; exact Finset.subset_insert _ _
    · simp only [if_neg hc]; exact Finset.Subset.refl _

theorem loadOperand_UEVAR_ne (b : Nat) (st : Maps) (v : Value) (c : Nat) (hc : c ≠ b) :
    (loadOperand b st v).UEVAR c = st.UEVAR c := by
  rw [loadOperand_UEVAR]
  cases asLoad v with
  | none => rfl
  | some p => simp only [if_neg hc]

theorem loadOperand_UEVAR_load (b : Nat) (st : Maps) (p : Value) :
    asAlloca p ∈ (loadOperand b st (Value.LoadInst p)).UEVAR b := by
  rw [loadOperand_UEVAR]
  simp [asLoad]

theorem binaryOperand_UEVAR_mono (b : Nat) (st : Maps) (a : AllocaPtr) (c : Nat) :
    st.UEVAR c ⊆ (binaryOperand b st a).UEVAR c := by
  rw [binaryOperand_UEVAR]
  split_ifs with h
  · rw [h.1]; exact Finset.subset_insert _ _
  · exact Finset.Subset.refl _

/-- The target update of a store: the state after lines 92-95. -/
theorem storeTarget_UEVAR (b : Nat) (st : Maps) (op1 : Value) (c : Nat) :
    (match op1 with
      | Value.AllocaInst a =>
        ({ st with bb_kill_map :=
            (st.bb_kill_map.touch b).write b (insert (some a) ((st.bb_kill_map.touch b).read b)) }
          : Maps)
      | _ => st).UEVAR c = st.UEVAR c := by
  cases op1 <;> rfl

theorem classifyInst_UEVAR_mono (b : Nat) (st : Maps) (i : Instruction) (c : Nat) :
    st.UEVAR c ⊆ (classifyInst b st i).UEVAR c := by
  cases i with
  | BinaryOp opc op0 op1 =>
    simp only [classifyInst]
    split_ifs
    · exact (binaryOperand_UEVAR_mono b st _ c).trans (binaryOperand_UEVAR_mono b _ _ c)
    · exact Finset.Subset.refl _
  | StoreInst op0 op1 =>
    simp only [classifyInst]
    refine Finset.Subset.trans ?_ (loadOperand_UEVAR_mono b _ op0 c)
    rw [storeTarget_UEVAR]
  | ICmpInst op0 op1 =>
    simp only [classifyInst]
    exact (loadOperand_UEVAR_mono b st op1 c).trans (loadOperand_UEVAR_mono b _ op0 c)
  | LoadInst op0 => exact Finset.Subset.refl _
  | Other => exact Finset.Subset.refl _

theorem classifyInst_UEVAR_ne (b : Nat) (st : Maps) (i : Instruction) (c : Nat) (hc : c ≠ b) :
    (classifyInst b st i).UEVAR c = st.UEVAR c := by
  cases i with
  | BinaryOp opc op0 op1 => exact classifyInst_binary_UEVAR_ne b st opc op0 op1 c hc
  | StoreInst op0 op1 =>
    simp only [classifyInst]
    rw [loadOperand_UEVAR_ne _ _ _ _ hc, storeTarget_UEVAR]
  | ICmpInst op0 op1 =>
    simp only [classifyInst]
    rw [loadOperand_UEVAR_ne _ _ _ _ hc, loadOperand_UEVAR_ne _ _ _ _ hc]
  | LoadInst op0 => rfl
  | Other => rfl

theorem classifyInst_KILL_mem (b : Nat) (st : Maps) (i : Instruction) (c : Nat)
    (p : AllocaPtr) :
    p ∈ (classifyInst b st i).KILL c ↔
      p ∈ st.KILL c ∨
        (c = b ∧ ∃ a val, p = some a ∧ i = Instruction.StoreInst val (Value.AllocaInst a)) := by
  cases i with
  | BinaryOp opc op0 op1 => rw [classifyInst_binary_KILL]; simp
  | StoreInst op0 op1 =>
    simp only [classifyInst]
    rw [loadOperand_KILL]
    cases op1 with
    | AllocaInst a =>
      by_cases hc : c = b
      · subst hc
        simp [Maps.KILL]
        tauto
      · simp [Maps.KILL, hc]
    | LoadInst q => simp
    | Other => simp
  | ICmpInst op0 op1 =>
    simp only [classifyInst]
    rw [loadOperand_KILL, loadOperand_KILL]; simp
  | LoadInst op0 => simp [classifyInst]
  | Other => simp [classifyInst]

theorem classifyInst_store_UEVAR (b : Nat) (st : Maps) (p ptr : Value) :
    asAlloca p ∈ (classifyInst b st (Instruction.StoreInst (Value.LoadInst p) ptr)).UEVAR b := by
  simp only [classifyInst]
  exact loadOperand_UEVAR_load b _ p

theorem classifyInst_icmp_UEVAR_fst (b : Nat) (st : Maps) (p x : Value) :
    asAlloca p ∈ (classifyInst b st (Instruction.ICmpInst (Value.LoadInst p) x)).UEVAR b := by
  simp only [classifyInst]
  exact loadOperand_UEVAR_load b _ p

theorem classifyInst_icmp_UEVAR_snd (b : Nat) (st : Maps) (p x : Value) :
    asAlloca p ∈ (classifyInst b st (Instruction.ICmpInst x (Value.LoadInst p))).UEVAR b := by
  simp only [classifyInst]
  exact loadOperand_UEVAR_mono b _ x b (loadOperand_UEVAR_load b st p)

/-! ## Classification: blocks and the function -/

theorem classifyBlock_UEVAR_mono (b : Nat) (insts : List Instruction) :
    ∀ (st : Maps) (c : Nat), st.UEVAR c ⊆ (insts.foldl (classifyInst b) st).UEVAR c := by
  induction insts with
  | nil => intro st c; exact Finset.Subset.refl _
  | cons i insts ih =>
    intro st c
    exact (classifyInst_UEVAR_mono b st i c).trans (ih _ c)

theorem classifyBlock_KILL_mem (b : Nat) (insts : List Instruction) :
    ∀ (st : Maps) (c : Nat) (p : AllocaPtr),
      p ∈ (insts.foldl (classifyInst b) st).KILL c ↔
        p ∈ st.KILL c ∨
          (c = b ∧ ∃ a val, p = some a ∧
            Instruction.StoreInst val (Value.AllocaInst a) ∈ insts) := by
  induction insts with
  | nil => intro st c p; simp
  | cons i insts ih =>
    intro st c p
    rw [List.foldl_cons, ih, classifyInst_KILL_mem]
    constructor
    · rintro ((h | ⟨hc, a, val, hp, hi⟩) | ⟨hc, a, val, hp, hi⟩)
      · exact Or.inl h
      · exact Or.inr ⟨hc, a, val, hp, hi ▸ List.mem_cons_self _ _⟩
      · exact Or.inr ⟨hc, a, val, hp, List.mem_cons_of_mem _ hi⟩
    · rintro (h | ⟨hc, a, val, hp, hi⟩)
      · exact Or.inl (Or.inl h)
      · rcases List.mem_cons.mp hi with hi | hi
        · exact Or.inl (Or.inr ⟨hc, a, val, hp, hi.symm⟩)
        · exact Or.inr ⟨hc, a, val, hp, hi⟩

theorem classifyFrom_append (l1 l2 : List BasicBlock) :
    ∀ (b0 : Nat) (st : Maps),
      classifyFrom b0 (l1 ++ l2) st = classifyFrom (b0 + l1.length) l2 (classifyFrom b0 l1 st) := by
  induction l1 with
  | nil => intro b0 st; rfl
  | cons bb l1 ih =>
    intro b0 st
    rw [List.cons_append]
    simp only [classifyFrom, List.length_cons]
    rw [ih, Nat.add_assoc, Nat.add_comm 1]

theorem classifyFrom_UEVAR_mono (bbs : List BasicBlock) :
    ∀ (b0 : Nat) (st : Maps) (c : Nat), st.UEVAR c ⊆ (classifyFrom b0 bbs st).UEVAR c := by
  induction bbs with
  | nil => intro b0 st c; exact Finset.Subset.refl _
  | cons bb bbs ih =>
    intro b0 st c
    exact (classifyBlock_UEVAR_mono b0 bb.insts st c).trans (ih _ _ c)

theorem classifyFrom_KILL_mem (bbs : List BasicBlock) :
    ∀ (b0 : Nat) (st : Maps) (c : Nat) (p : AllocaPtr),
      p ∈ (classifyFrom b0 bbs st).KILL c ↔
        p ∈ st.KILL c ∨
          ∃ a val bb, p = some a ∧ b0 ≤ c ∧ bbs[c - b0]? = some bb ∧
            Instruction.StoreInst val (Value.AllocaInst a) ∈ bb.insts := by
  induction bbs with
  | nil => intro b0 st c p; simp [classifyFrom]
  | cons bb bbs ih =>
    intro b0 st c p
    simp only [classifyFrom]
    rw [ih]
    unfold classifyBlock
    rw [classifyBlock_KILL_mem]
    constructor
    · rintro ((h | ⟨hc, a, val, hp, hi⟩) | ⟨a, val, bb', hp, hle, hget, hi⟩)
      · exact Or.inl h
      · subst hc
        exact Or.inr ⟨a, val, bb, hp, Nat.le_refl _, by simp, hi⟩
      · refine Or.inr ⟨a, val, bb', hp, by omega, ?_, hi⟩
        have e : c - b0 = (c - (b0 + 1)) + 1 := by omega
        rw [e, List.getElem?_cons_succ]
        exact hget
    · rintro (h | ⟨a, val, bb', hp, hle, hget, hi⟩)
      · exact Or.inl (Or.inl h)
      · by_cases hc : c = b0
        · subst hc
          simp at hget
          subst hget
          exact Or.inl (Or.inr ⟨rfl, a, val, hp, hi⟩)
        · have e : c - b0 = (c - (b0 + 1)) + 1 := by omega
          rw [e, List.getElem?_cons_succ] at hget
          exact Or.inr ⟨a, val, bb', hp, by omega, hget, hi⟩

theorem classify_KILL_mem (F : Function) (b : Nat) (p : AllocaPtr) :
    p ∈ (classify F).KILL b ↔
      ∃ a val, p = some a ∧
        Instruction.StoreInst val (Value.AllocaInst a) ∈ instructions F b := by
  unfold classify
  rw [classifyFrom_KILL_mem]
  have h0 : p ∉ emptyMaps.KILL b := by simp [emptyMaps, Maps.KILL]
  unfold instructions
  constructor
  · rintro (h | ⟨a, val, bb, hp, _, hget, hi⟩)
    · exact absurd h h0
    · rw [Nat.sub_zero] at hget
      exact ⟨a, val, hp, by rw [hget]; exact hi⟩
  · rintro ⟨a, val, hp, hi⟩
    cases hget : F[b]? with
    | none => rw [hget] at hi; simp at hi
    | some bb =>
      rw [hget] at hi
      exact Or.inr ⟨a, val, bb, hp, Nat.zero_le _, by simpa using hget, hi⟩

/-- The state in which the instruction after `pre` in block `b` is reached, and how the
final classification is obtained from there. -/
theorem classify_split (F : Function) (b : Nat) (pre post : List Instruction)
    (i : Instruction) (h : instructions F b = pre ++ i :: post) :
    ∃ st : Maps, (∀ p, p ∈ st.KILL b ↔
        ∃ a val, p = some a ∧ Instruction.StoreInst val (Value.AllocaInst a) ∈ pre) ∧
      (classifyInst b st i).UEVAR b ⊆ (classify F).UEVAR b := by
  unfold instructions at h
  cases hget : F[b]? with
  | none => rw [hget] at h; simp at h
  | some bb =>
    rw [hget] at h
    simp only at h
    have hb : b < F.length := by
      by_contra hb
      rw [List.getElem?_eq_none (Nat.le_of_not_lt hb)] at hget
      exact Option.noConfusion hget
    have hbb : F[b] = bb := by
      rw [List.getElem?_eq_getElem hb] at hget
      exact Option.some.inj hget
    have hF : F = F.take b ++ bb :: F.drop (b + 1) := by
      rw [← hbb, List.getElem_cons_drop F b hb, List.take_append_drop]
    have hlen : (F.take b).length = b := by
      rw [List.length_take]; omega
    refine ⟨pre.foldl (classifyInst b) (classifyFrom 0 (F.take b) emptyMaps), ?_, ?_⟩
    · intro p
      rw [classifyBlock_KILL_mem, classifyFrom_KILL_mem]
      have h0 : p ∉ emptyMaps.KILL b := by simp [emptyMaps, Maps.KILL]
      have hnone : (F.take b)[b - 0]? = none := by
        rw [List.getElem?_eq_none]; omega
      constructor
      · rintro ((h1 | ⟨a, val, bb', _, _, hget', _⟩) | ⟨_, h2⟩)
        · exact absurd h1 h0
        · rw [hnone] at hget'; exact Option.noConfusion hget'
        · exact h2
      · intro h2
        exact Or.inr ⟨rfl, h2⟩
    · have e : classify F = classifyFrom (b + 1) (F.drop (b + 1))
          (post.foldl (classifyInst b) (classifyInst b
            (pre.foldl (classifyInst b) (classifyFrom 0 (F.take b) emptyMaps)) i)) := by
        unfold classify
        conv_lhs => rw [hF]
        rw [classifyFrom_append, hlen, Nat.zero_add]
        simp only [classifyFrom, classifyBlock]
        rw [h, List.foldl_append, List.foldl_cons]
      rw [e]
      exact (classifyBlock_UEVAR_mono b post _ b).trans (classifyFrom_UEVAR_mono _ _ _ b)

/-! ## Claims about the classification -/

/-- C5 as stated fails: in `load x; ret (load x)` and in `load x; store c, x; add (load x), c`
the block contains a load of `x` that no store to `x` precedes, yet `x` is not in `UEVAR`. -/
theorem uevar_misses_exposed_load :
    (UpwardExposedLoad (instructions loadThenReturn 0) 0 ∧
        some 0 ∉ (classify loadThenReturn).UEVAR 0) ∧
      (UpwardExposedLoad (instructions loadStoreAdd 0) 0 ∧
        some 0 ∉ (classify loadStoreAdd).UEVAR 0) :=
  ⟨⟨⟨[], [Instruction.Other], rfl, by simp⟩, by decide⟩,
    ⟨⟨[], _, rfl, by simp⟩, by decide⟩⟩

/-- C5 amended: if block `b` contains a store whose stored value is a load of slot `v`, or a
comparison with an operand that is a load of `v`, or an add, sub, mul, sdiv or udiv with an
operand that is a load of `v` and no store to `v` precedes that instruction in `b`, then `v`
is in `UEVAR(b)` after classification. -/
theorem uevar_of_consumer (F : Function) (b v : Nat) (pre post : List Instruction)
    (i : Instruction) (hsplit : instructions F b = pre ++ i :: post)
    (hi : ConsumesLoadOf pre i v) : some v ∈ (classify F).UEVAR b := by
  obtain ⟨st, hk, hsub⟩ := classify_split F b pre post i hsplit
  apply hsub
  rcases hi with ⟨ptr, rfl⟩ | ⟨x, rfl | rfl⟩ | ⟨opc, x, hop, hi, hno⟩
  · exact classifyInst_store_UEVAR b st (Value.AllocaInst v) ptr
  · exact classifyInst_icmp_UEVAR_fst b st (Value.AllocaInst v) x
  · exact classifyInst_icmp_UEVAR_snd b st (Value.AllocaInst v) x
  · have hsup : supportedOp opc = true := by
      simp only [List.mem_cons, List.mem_singleton, List.not_mem_nil, or_false] at hop
      rcases hop with rfl | rfl | rfl | rfl | rfl <;> rfl
    have hnk : some v ∉ st.KILL b := by
      intro hin
      obtain ⟨a, val, ha, hmem⟩ := (hk _).mp hin
      cases ha
      exact hno val hmem
    rcases hi with rfl | rfl
    · exact (classifyInst_binary_UEVAR b st opc _ _ hsup _).mpr
        (Or.inr ⟨v, rfl, Or.inl rfl, hnk⟩)
    · exact (classifyInst_binary_UEVAR b st opc _ _ hsup _).mpr
        (Or.inr ⟨v, rfl, Or.inr rfl, hnk⟩)

/-- Witness for the amended C5: the add of Scenario 1 placed before the store. -/
theorem uevar_of_consumer_witness :
    ConsumesLoadOf
        [Instruction.LoadInst (Value.AllocaInst 0), Instruction.LoadInst (Value.AllocaInst 1)]
        (Instruction.BinaryOp BinaryOps.Add (Value.LoadInst (Value.AllocaInst 0))
          (Value.LoadInst (Value.AllocaInst 1))) 0 ∧
      some 0 ∈ (classify scenario1AddFirst).UEVAR 0 :=
  have hc : ConsumesLoadOf
      [Instruction.LoadInst (Value.AllocaInst 0), Instruction.LoadInst (Value.AllocaInst 1)]
      (Instruction.BinaryOp BinaryOps.Add (Value.LoadInst (Value.AllocaInst 0))
        (Value.LoadInst (Value.AllocaInst 1))) 0 :=
    Or.inr (Or.inr ⟨BinaryOps.Add, Value.LoadInst (Value.AllocaInst 1), by simp, Or.inl rfl,
      by simp⟩)
  ⟨hc, uevar_of_consumer scenario1AddFirst 0 0 _
    [Instruction.StoreInst Value.Other (Value.AllocaInst 0)] _ rfl hc⟩

/-- C6 on the code (Scenario 3): in `store c, z; load z; icmp (load z), c; br` every load of
`z` is preceded by a store to `z`, and the classification still puts `z` into `UEVAR`. -/
theorem scenario3_uevar :
    EveryLoadShadowed (instructions scenario3 0) 0 ∧
      (classify scenario3).UEVAR 0 = {some 0} ∧ (classify scenario3).KILL 0 = {some 0} := by
  refine ⟨?_, by decide, by decide⟩
  intro pre post h
  cases pre with
  | nil => simp [instructions, scenario3] at h
  | cons x pre =>
    simp [instructions, scenario3] at h
    exact ⟨Value.Other, by rw [← h.1]; exact List.mem_cons_self _ _⟩

/-- C7 (KILL is exactly the stored-to slots): after classification an element is in `KILL(b)`
if and only if it is a slot `a` such that block `b` contains a store whose target operand is
the slot `a`. -/
theorem kill_exact (F : Function) (b : Nat) (p : AllocaPtr) :
    p ∈ (classify F).KILL b ↔
      ∃ a val, p = some a ∧
        Instruction.StoreInst val (Value.AllocaInst a) ∈ instructions F b :=
  classify_KILL_mem F b p

/-- C8 (binary-arithmetic rule): processing an add, sub, mul, sdiv or udiv in block `b` leaves
every KILL set and the UEVAR sets of the other blocks unchanged, and `UEVAR(b)` becomes the
old `UEVAR(b)` plus exactly the slots `s` such that one of the two operands is a load of `s`
and `s` is not in `KILL(b)`. In Scenario 1 this gives `KILL = {x}`, `UEVAR = {y}`, and
`UEVAR = {x, y}` when the add precedes the store. -/
theorem binary_rule (b : Nat) (st : Maps) (opc : BinaryOps) (op0 op1 : Value)
    (hop : opc ∈
      [BinaryOps.Add, BinaryOps.Sub, BinaryOps.Mul, BinaryOps.SDiv, BinaryOps.UDiv]) :
    (∀ c, (classifyInst b st (Instruction.BinaryOp opc op0 op1)).KILL c = st.KILL c) ∧
      (∀ c, c ≠ b →
        (classifyInst b st (Instruction.BinaryOp opc op0 op1)).UEVAR c = st.UEVAR c) ∧
      (∀ p, p ∈ (classifyInst b st (Instruction.BinaryOp opc op0 op1)).UEVAR b ↔
        p ∈ st.UEVAR b ∨ ∃ s, p = some s ∧
          (op0 = Value.LoadInst (Value.AllocaInst s) ∨
            op1 = Value.LoadInst (Value.AllocaInst s)) ∧ some s ∉ st.KILL b) ∧
      ((classify scenario1).KILL 0 = {some 0} ∧ (classify scenario1).UEVAR 0 = {some 1}) ∧
      ((classify scenario1AddFirst).KILL 0 = {some 0} ∧
        (classify scenario1AddFirst).UEVAR 0 = {some 0, some 1}) := by
  have hsup : supportedOp opc = true := by
    simp only [List.mem_cons, List.mem_singleton, List.not_mem_nil, or_false] at hop
    rcases hop with rfl | rfl | rfl | rfl | rfl <;> rfl
  exact ⟨classifyInst_binary_KILL b st opc op0 op1,
    classifyInst_binary_UEVAR_ne b st opc op0 op1,
    classifyInst_binary_UEVAR b st opc op0 op1 hsup,
    ⟨by decide, by decide⟩, ⟨by decide, by decide⟩⟩

/-- Witness for C8: a `sub` of loads of slots `0` and `2` in the state Scenario 1 ends in,
where slot `0` is killed. -/
theorem binary_rule_witness :
    BinaryOps.Sub ∈
        [BinaryOps.Add, BinaryOps.Sub, BinaryOps.Mul, BinaryOps.SDiv, BinaryOps.UDiv] ∧
      (some 2 ∈ (classifyInst 0 (classify scenario1)
          (Instruction.BinaryOp BinaryOps.Sub (Value.LoadInst (Value.AllocaInst 0))
            (Value.LoadInst (Value.AllocaInst 2)))).UEVAR 0 ↔
        some 2 ∈ (classify scenario1).UEVAR 0 ∨ ∃ s, some 2 = some s ∧
          (Value.LoadInst (Value.AllocaInst 0) = Value.LoadInst (Value.AllocaInst s) ∨
            Value.LoadInst (Value.AllocaInst 2) = Value.LoadInst (Value.AllocaInst s)) ∧
          some s ∉ (classify scenario1).KILL 0) :=
  ⟨by decide,
    (binary_rule 0 (classify scenario1) BinaryOps.Sub (Value.LoadInst (Value.AllocaInst 0))
      (Value.LoadInst (Value.AllocaInst 2)) (by decide)).2.2.1 (some 2)⟩

/-- C9 (no kill-check on the store-source and comparison paths): in any state, so also when
the slot is already in `KILL(b)`, processing a store whose stored value is a load of slot `t`
puts `t` into `UEVAR(b)`, and processing a comparison puts into `UEVAR(b)` every slot of which
one of the two operands is a load. -/
theorem store_icmp_no_kill_check (b : Nat) (st : Maps) (t : Nat) (x : Value) :
    some t ∈ (classifyInst b st
        (Instruction.StoreInst (Value.LoadInst (Value.AllocaInst t)) x)).UEVAR b ∧
      some t ∈ (classifyInst b st
        (Instruction.ICmpInst (Value.LoadInst (Value.AllocaInst t)) x)).UEVAR b ∧
      some t ∈ (classifyInst b st
        (Instruction.ICmpInst x (Value.LoadInst (Value.AllocaInst t)))).UEVAR b :=
  ⟨classifyInst_store_UEVAR b st (Value.AllocaInst t) x,
    classifyInst_icmp_UEVAR_fst b st (Value.AllocaInst t) x,
    classifyInst_icmp_UEVAR_snd b st (Value.AllocaInst t) x⟩

/-- C10 on the code: a store whose value is a load from a non-slot pointer, and a comparison
with such an operand, insert the null pointer into `UEVAR`, while the binary-operation path
with the same operand inserts nothing. -/
theorem null_inserted_into_uevar :
    (classify storeFromPointer).UEVAR 0 = {none} ∧
      (classify compareFromPointer).UEVAR 0 = {none} ∧
      (classify addFromPointer).UEVAR 0 = ∅ := by
  refine ⟨by decide, by decide, by decide⟩

/-! ## Further facts about the solver -/

theorem WellFormed.succ_lt {F : Function} (h : WellFormed F) {b s : Nat}
    (hs : s ∈ successors F b) : s < F.length := by
  unfold successors at hs
  cases hget : F[b]? with
  | none => rw [hget] at hs; simp at hs
  | some bb =>
    rw [hget] at hs
    exact h bb (List.getElem?_mem hget) s hs

theorem SolverInv.empty_of_no_succ {F : Function} {U K : Nat → SlotSet} {st : Maps}
    (h : SolverInv F U K st) {b : Nat} (hb : successors F b = []) : st.LIVEOUT b = ∅ := by
  apply Finset.eq_empty_of_forall_not_mem
  intro v hv
  obtain ⟨s, hs, _⟩ := h.justified b v hv
  rw [hb] at hs
  simp at hs

theorem blockFold_UEVAR (F : Function) (bs : List Nat) :
    ∀ (acc : Maps × Bool) (c : Nat),
      (bs.foldl (blockStep F) acc).1.UEVAR c = acc.1.UEVAR c := by
  induction bs with
  | nil => intro acc c; rfl
  | cons b bs ih => intro acc c; rw [List.foldl_cons, ih, blockStep_UEVAR]

theorem blockFold_KILL (F : Function) (bs : List Nat) :
    ∀ (acc : Maps × Bool) (c : Nat),
      (bs.foldl (blockStep F) acc).1.KILL c = acc.1.KILL c := by
  induction bs with
  | nil => intro acc c; rfl
  | cons b bs ih => intro acc c; rw [List.foldl_cons, ih, blockStep_KILL]

theorem whileLoop_UEVAR (F : Function) :
    ∀ (fuel : Nat) (st st' : Maps), whileLoop F fuel st = some st' →
      ∀ c, st'.UEVAR c = st.UEVAR c := by
  intro fuel
  induction fuel with
  | zero => intro st st' h; simp [whileLoop] at h
  | succ n ih =>
    intro st st' h c
    simp only [whileLoop] at h
    by_cases hf : (sweep F st).2 = true
    · rw [if_pos hf] at h
      rw [ih _ _ h c]
      exact blockFold_UEVAR F _ (st, false) c
    · rw [if_neg hf] at h
      rw [← Option.some.inj h]
      exact blockFold_UEVAR F _ (st, false) c

theorem whileLoop_KILL (F : Function) :
    ∀ (fuel : Nat) (st st' : Maps), whileLoop F fuel st = some st' →
      ∀ c, st'.KILL c = st.KILL c := by
  intro fuel
  induction fuel with
  | zero => intro st st' h; simp [whileLoop] at h
  | succ n ih =>
    intro st st' h c
    simp only [whileLoop] at h
    by_cases hf : (sweep F st).2 = true
    · rw [if_pos hf] at h
      rw [ih _ _ h c]
      exact blockFold_KILL F _ (st, false) c
    · rw [if_neg hf] at h
      rw [← Option.some.inj h]
      exact blockFold_KILL F _ (st, false) c

/-- The slots of the UEVAR sets of the blocks are closed under the transfer rule when every
successor is a block of the function. -/
theorem uevarSlots_closed {F : Function} (hwf : WellFormed F) (U K : Nat → SlotSet) :
    ∀ b s v, s ∈ successors F b →
      (v ∈ U s ∨ (v ∈ uevarSlots F U ∧ v ∉ K s)) → v ∈ uevarSlots F U := by
  intro b s v hs h
  rcases h with h | ⟨h, _⟩
  · unfold uevarSlots
    simp only [Finset.mem_biUnion, Finset.mem_range]
    exact ⟨s, hwf.succ_lt hs, h⟩
  · exact h

/-- In a function without edges the first sweep leaves the flag false. -/
theorem sweep_flag_of_no_edges {F : Function} {U K : Nat → SlotSet} {st : Maps}
    (h : SolverInv F U K st) (hno : ∀ b, successors F b = []) : (sweep F st).2 = false := by
  cases hf : (sweep F st).2
  · rfl
  · obtain ⟨b, _, hlt⟩ := sweep_flag_true h hf
    exfalso
    apply hlt.2
    rw [(sweep_inv h).empty_of_no_succ (hno b)]
    exact Finset.empty_subset _

/-! ## Claims about the solver, continued -/

/-- C11 (exit-block floor): for a block `b` with no successors, `LIVEOUT(b)` is empty after
every sweep, after every block recomputation inside a sweep, and in the final result, for all
UEVAR and KILL maps. -/
theorem exit_block_floor (F : Function) (uevar kill : BBMap) (b : Nat)
    (hb : successors F b = []) :
    (∀ i, (sweeps F i (solverInit uevar kill)).LIVEOUT b = ∅) ∧
      (∀ i j, (midSweep F j (sweeps F i (solverInit uevar kill))).1.LIVEOUT b = ∅) ∧
      ∀ fuel st, solve F uevar kill fuel = some st → st.LIVEOUT b = ∅ := by
  have h0 := solverInit_inv F uevar kill
  refine ⟨fun i => (sweeps_inv h0 i).empty_of_no_succ hb,
    fun i j => (midSweep_inv (sweeps_inv h0 i) j).empty_of_no_succ hb, ?_⟩
  intro fuel st h
  exact (whileLoop_exit fuel _ _ h0 h).1.empty_of_no_succ hb

/-- Witness for C11: the exit block `B2` of the loop graph, which has a non-empty UEVAR. -/
theorem exit_block_floor_witness :
    successors loopCFG 2 = [] ∧
      (sweeps loopCFG 1 (solverInit loopUEVAR BBMap.empty)).LIVEOUT 2 = ∅ :=
  ⟨rfl, (exit_block_floor loopCFG loopUEVAR BBMap.empty 2 rfl).1 1⟩

/-- C12 (the fixpoint phase keeps the local facts): when the solver loop, started in any
state and so in the state classification ends in, returns, every `UEVAR(b)` and `KILL(b)`,
an absent entry read as the empty set, is what it was before the loop. -/
theorem local_facts_unchanged (F : Function) (fuel : Nat) (st0 st : Maps)
    (h : whileLoop F fuel st0 = some st) (b : Nat) :
    st.UEVAR b = st0.UEVAR b ∧ st.KILL b = st0.KILL b :=
  ⟨whileLoop_UEVAR F fuel st0 st h b, whileLoop_KILL F fuel st0 st h b⟩

/-- Witness for C12: classification of Scenario 1 followed by the solver. -/
theorem local_facts_unchanged_witness :
    ∃ st, analyse scenario1 1 = some st ∧
      st.UEVAR 0 = (classify scenario1).UEVAR 0 ∧ st.KILL 0 = (classify scenario1).KILL 0 :=
  ⟨_, rfl, local_facts_unchanged scenario1 1 (classify scenario1) _ rfl 0⟩

/-- C13 (idempotence after convergence): one more sweep on the state the solver returned
leaves every `LIVEOUT(b)` as it was and leaves the flag false. -/
theorem sweep_idempotent (F : Function) (uevar kill : BBMap) (fuel : Nat) (st : Maps)
    (h : solve F uevar kill fuel = some st) :
    (sweep F st).2 = false ∧ ∀ b, (sweep F st).1.LIVEOUT b = st.LIVEOUT b := by
  obtain ⟨hinv, _, hf, _⟩ := whileLoop_exit fuel _ _ (solverInit_inv F uevar kill) h
  exact ⟨hf, fun b => congrFun (sweep_flag_false hinv hf).1 b⟩

/-- Witness for C13 on the loop graph. -/
theorem sweep_idempotent_witness :
    ∃ st, solve loopCFG loopUEVAR BBMap.empty 3 = some st ∧
      (sweep loopCFG st).2 = false ∧ (sweep loopCFG st).1.LIVEOUT 1 = st.LIVEOUT 1 :=
  ⟨_, rfl, (sweep_idempotent loopCFG loopUEVAR BBMap.empty 3 _ rfl).1,
    (sweep_idempotent loopCFG loopUEVAR BBMap.empty 3 _ rfl).2 1⟩

/-- C14 (sweep-count bound): for a function with `n` blocks, every successor a block of the
function, whose UEVAR sets mention `k` slots in total, `n * k + 1` sweeps make the solver
return; whenever it returns it has made `i + 1` sweeps with `i ≤ n * k`, the first `i` of them
setting the flag and the last one not; and without edges one sweep is enough. -/
theorem sweep_count_bound (F : Function) (uevar kill : BBMap) (hwf : WellFormed F) :
    (∃ st, solve F uevar kill (F.length * (uevarSlots F uevar.read).card + 1) = some st) ∧
      (∀ fuel st, solve F uevar kill fuel = some st →
        ∃ i, i ≤ F.length * (uevarSlots F uevar.read).card ∧
          st = sweeps F (i + 1) (solverInit uevar kill) ∧
          (sweep F (sweeps F i (solverInit uevar kill))).2 = false ∧
          ∀ j, j < i → (sweep F (sweeps F j (solverInit uevar kill))).2 = true) ∧
      ((∀ b, successors F b = []) → ∃ st, solve F uevar kill 1 = some st) := by
  have h0 := solverInit_inv F uevar kill
  have hterm : ∃ st, solve F uevar kill
      (F.length * (uevarSlots F uevar.read).card + 1) = some st := by
    apply whileLoop_terminates (uevarSlots F uevar.read)
      (uevarSlots_closed hwf uevar.read kill.read) _ _ h0
    · intro c
      rw [solverInit_LIVEOUT]
      exact Finset.empty_subset _
    · omega
  refine ⟨hterm, ?_, ?_⟩
  · intro fuel st h
    obtain ⟨st2, h2⟩ := hterm
    obtain ⟨i, _, hst, hfalse, htrue⟩ := whileLoop_eq_sweeps F fuel _ _ h
    obtain ⟨i2, hi2, _, hfalse2, htrue2⟩ := whileLoop_eq_sweeps F _ _ _ h2
    refine ⟨i, ?_, hst, hfalse, htrue⟩
    by_contra hgt
    have hlt : i2 < i := by omega
    have := htrue i2 hlt
    rw [hfalse2] at this
    exact Bool.noConfusion this
  · intro hno
    refine ⟨(sweep F (solverInit uevar kill)).1, ?_⟩
    show whileLoop F 1 (solverInit uevar kill) = _
    simp only [whileLoop]
    rw [sweep_flag_of_no_edges h0 hno]
    rfl

/-- Witness for C14 on the loop graph: three blocks, one slot, so four sweeps suffice. -/
theorem sweep_count_bound_witness :
    WellFormed loopCFG ∧
      ∃ st, solve loopCFG loopUEVAR BBMap.empty
        (loopCFG.length * (uevarSlots loopCFG loopUEVAR.read).card + 1) = some st :=
  ⟨by unfold WellFormed; decide,
    (sweep_count_bound loopCFG loopUEVAR BBMap.empty (by unfold WellFormed; decide)).1⟩

/-! ## The reports -/

theorem binaryOperand_live (b : Nat) (st : Maps) (a : AllocaPtr) :
    (binaryOperand b st a).bb_live_out_map = st.bb_live_out_map := by
  unfold binaryOperand
  by_cases h1 : a.isSome = true
  · by_cases h2 : a ∈ st.bb_kill_map.read b
    · simp [h1, h2]
    · simp [h1, h2]
  · simp [h1]

theorem loadOperand_live (b : Nat) (st : Maps) (v : Value) :
    (loadOperand b st v).bb_live_out_map = st.bb_live_out_map := by
  unfold loadOperand
  cases asLoad v <;> rfl

theorem classifyInst_live (b : Nat) (st : Maps) (i : Instruction) :
    (classifyInst b st i).bb_live_out_map = st.bb_live_out_map := by
  cases i with
  | BinaryOp opc op0 op1 =>
    simp only [classifyInst]
    split_ifs
    · rw [binaryOperand_live, binaryOperand_live]
    · rfl
  | StoreInst op0 op1 =>
    simp only [classifyInst]
    rw [loadOperand_live]
    cases op1 <;> rfl
  | ICmpInst op0 op1 =>
    simp only [classifyInst]
    rw [loadOperand_live, loadOperand_live]
  | LoadInst op0 => rfl
  | Other => rfl

theorem classifyBlock_live (b : Nat) (insts : List Instruction) :
    ∀ st : Maps, (insts.foldl (classifyInst b) st).bb_live_out_map = st.bb_live_out_map := by
  induction insts with
  | nil => intro st; rfl
  | cons i insts ih => intro st; rw [List.foldl_cons, ih, classifyInst_live]

theorem classifyFrom_live (bbs : List BasicBlock) :
    ∀ (b0 : Nat) (st : Maps),
      (classifyFrom b0 bbs st).bb_live_out_map = st.bb_live_out_map := by
  induction bbs with
  | nil => intro b0 st; rfl
  | cons bb bbs ih =>
    intro b0 st
    simp only [classifyFrom]
    rw [ih]
    exact classifyBlock_live b0 bb.insts st

/-- Classification leaves the LIVEOUT map without entries. -/
theorem classify_live (F : Function) : (classify F).bb_live_out_map = BBMap.empty :=
  classifyFrom_live F 0 emptyMaps

/-- The state classification ends in satisfies the solver invariant. -/
theorem classify_inv (F : Function) :
    SolverInv F (classify F).UEVAR (classify F).KILL (classify F) := by
  refine ⟨rfl, rfl, ?_⟩
  intro b v hv
  simp [Maps.LIVEOUT, classify_live] at hv

/-- The solver exits on the result of classification. -/
theorem analyse_terminates (F : Function) : ∃ fuel st, analyse F fuel = some st := by
  refine ⟨F.length * (slotUniverse F (classify F).UEVAR).card + 1, ?_⟩
  apply whileLoop_terminates (slotUniverse F (classify F).UEVAR)
    (slotUniverse_closed F (classify F).UEVAR (classify F).KILL) _ _ (classify_inv F)
  · intro c
    simp [Maps.LIVEOUT, classify_live]
  · omega

theorem BBMap.touch_self (m : BBMap) (k : Nat) : ((m.touch k) k).isSome = true := by
  simp [BBMap.touch]

theorem BBMap.touch_keeps (m : BBMap) (k j : Nat) (h : (m j).isSome = true) :
    ((m.touch k) j).isSome = true := by
  unfold BBMap.touch
  split_ifs
  · rfl
  · exact h

theorem getNames_of_not_mem {s : SlotSet} (h : none ∉ s) :
    getNames s = Except.ok (Finset.eraseNone s) := by
  simp [getNames, h]

theorem getNames_of_mem {s : SlotSet} (h : none ∈ s) :
    getNames s = Except.error Fault.nullDereference := by
  simp [getNames, h]

/-- The terminal report for a block whose sets hold no null pointer only creates the three
entries. -/
theorem terminalReportBlock_of_noNull {st : Maps} {b : Nat} (h : NoNull st b) :
    terminalReportBlock st b =
      Except.ok { bb_live_out_map := st.bb_live_out_map.touch b,
                  bb_uevar_map := st.bb_uevar_map.touch b,
                  bb_kill_map := st.bb_kill_map.touch b } := by
  obtain ⟨hu, hk, hl⟩ := h
  unfold terminalReportBlock
  simp only [BBMap.read_touch]
  rw [getNames_of_not_mem (s := st.bb_uevar_map.read b) hu]
  simp only
  rw [getNames_of_not_mem (s := st.bb_kill_map.read b) hk]
  simp only
  rw [getNames_of_not_mem (s := st.bb_live_out_map.read b) hl]

/-- The terminal report for a block one of whose sets holds the null pointer ends in a null
dereference. -/
theorem terminalReportBlock_of_null {st : Maps} {b : Nat} (h : ¬ NoNull st b) :
    terminalReportBlock st b = Except.error Fault.nullDereference := by
  unfold terminalReportBlock
  simp only [BBMap.read_touch]
  by_cases hu : none ∈ st.bb_uevar_map.read b
  · rw [getNames_of_mem hu]
  · rw [getNames_of_not_mem hu]
    simp only
    by_cases hk : none ∈ st.bb_kill_map.read b
    · rw [getNames_of_mem hk]
    · rw [getNames_of_not_mem hk]
      simp only
      by_cases hl : none ∈ st.bb_live_out_map.read b
      · rw [getNames_of_mem hl]
      · exact absurd ⟨hu, hk, hl⟩ h

theorem hasEntries_touch {st : Maps} (b c : Nat) (h : c = b ∨ HasEntries st c) :
    HasEntries
      { bb_live_out_map := st.bb_live_out_map.touch b,
        bb_uevar_map := st.bb_uevar_map.touch b,
        bb_kill_map := st.bb_kill_map.touch b } c := by
  rcases h with rfl | h
  · exact ⟨BBMap.touch_self _ _, BBMap.touch_self _ _, BBMap.touch_self _ _⟩
  · exact ⟨BBMap.touch_keeps _ _ _ h.1, BBMap.touch_keeps _ _ _ h.2.1,
      BBMap.touch_keeps _ _ _ h.2.2⟩

theorem noNull_touch {st : Maps} (b c : Nat) :
    NoNull
      { bb_live_out_map := st.bb_live_out_map.touch b,
        bb_uevar_map := st.bb_uevar_map.touch b,
        bb_kill_map := st.bb_kill_map.touch b } c ↔ NoNull st c := by
  simp [NoNull, Maps.UEVAR, Maps.KILL, Maps.LIVEOUT]

/-- What a completed terminal report over the handles `bs` leaves behind: every handle of
`bs` has its three entries, no set of such a block holds the null pointer, entries are kept
and the sets are as before. -/
theorem terminalReportFrom_ok (bs : List Nat) :
    ∀ st st1 : Maps, terminalReportFrom bs st = Except.ok st1 →
      (∀ c, NoNull st1 c ↔ NoNull st c) ∧ (∀ c, HasEntries st c → HasEntries st1 c) ∧
        ∀ b ∈ bs, HasEntries st1 b ∧ NoNull st b := by
  induction bs with
  | nil =>
    intro st st1 h
    cases h
    exact ⟨fun _ => Iff.rfl, fun _ hc => hc, by simp⟩
  | cons x bs ih =>
    intro st st1 h
    by_cases hn : NoNull st x
    · simp only [terminalReportFrom, terminalReportBlock_of_noNull hn] at h
      obtain ⟨h1, h2, h3⟩ := ih _ _ h
      refine ⟨fun c => (h1 c).trans (noNull_touch x c), ?_, ?_⟩
      · intro c hc
        exact h2 c (hasEntries_touch x c (Or.inr hc))
      · intro b hb
        rcases List.mem_cons.mp hb with rfl | hb2
        · exact ⟨h2 b (hasEntries_touch b b (Or.inl rfl)), hn⟩
        · exact ⟨(h3 b hb2).1, (noNull_touch x b).mp (h3 b hb2).2⟩
    · simp only [terminalReportFrom, terminalReportBlock_of_null hn] at h
      cases h

/-- The terminal report never ends in `std::out_of_range`. -/
theorem terminalReportFrom_error (bs : List Nat) :
    ∀ (st : Maps) (e : Fault), terminalReportFrom bs st = Except.error e →
      e = Fault.nullDereference := by
  induction bs with
  | nil => intro st e h; cases h
  | cons x bs ih =>
    intro st e h
    by_cases hn : NoNull st x
    · simp only [terminalReportFrom, terminalReportBlock_of_noNull hn] at h
      exact ih _ e h
    · simp only [terminalReportFrom, terminalReportBlock_of_null hn] at h
      cases h
      rfl

/-- The terminal report completes when no set of the handled blocks holds the null
pointer. -/
theorem terminalReportFrom_of_noNull (bs : List Nat) :
    ∀ st : Maps, (∀ b ∈ bs, NoNull st b) → ∃ st1, terminalReportFrom bs st = Except.ok st1 := by
  induction bs with
  | nil => intro st _; exact ⟨st, rfl⟩
  | cons x bs ih =>
    intro st h
    simp only [terminalReportFrom, terminalReportBlock_of_noNull (h x (List.mem_cons_self _ _))]
    apply ih
    intro b hb
    exact (noNull_touch x b).mpr (h b (List.mem_cons_of_mem _ hb))

theorem BBMap.read_of_lookup {m : BBMap} {k : Nat} {s : SlotSet} (h : m.lookup k = some s) :
    m.read k = s := by
  unfold BBMap.lookup at h
  simp [BBMap.read, h]

/-- The body of the file report finds its three entries and prints their names when the block
has its entries and no set of it holds the null pointer. -/
theorem reportBlock_ok {st : Maps} {b : Nat} (he : HasEntries st b) (hn : NoNull st b) :
    ∃ r, reportBlock st.bb_uevar_map st.bb_kill_map st.bb_live_out_map b = Except.ok r := by
  obtain ⟨su, hsu⟩ := Option.isSome_iff_exists.mp he.1
  obtain ⟨sk, hsk⟩ := Option.isSome_iff_exists.mp he.2.1
  obtain ⟨sl, hsl⟩ := Option.isSome_iff_exists.mp he.2.2
  have hu : none ∉ su := by
    have := hn.1
    rwa [Maps.UEVAR, BBMap.read_of_lookup hsu] at this
  have hk : none ∉ sk := by
    have := hn.2.1
    rwa [Maps.KILL, BBMap.read_of_lookup hsk] at this
  have hl : none ∉ sl := by
    have := hn.2.2
    rwa [Maps.LIVEOUT, BBMap.read_of_lookup hsl] at this
  refine ⟨(Finset.eraseNone su, Finset.eraseNone sk, Finset.eraseNone sl), ?_⟩
  simp only [reportBlock, hsu, hsk, hsl, getNames_of_not_mem hu, getNames_of_not_mem hk,
    getNames_of_not_mem hl]

theorem reportBlocks_ok {st : Maps} (bs : List Nat)
    (h : ∀ b ∈ bs, HasEntries st b ∧ NoNull st b) :
    ∃ r, reportBlocks st.bb_uevar_map st.bb_kill_map st.bb_live_out_map bs = Except.ok r := by
  induction bs with
  | nil => exact ⟨[], rfl⟩
  | cons b bs ih =>
    obtain ⟨r, hr⟩ := reportBlock_ok (h b (List.mem_cons_self _ _)).1
      (h b (List.mem_cons_self _ _)).2
    obtain ⟨rs, hrs⟩ := ih (fun c hc => h c (List.mem_cons_of_mem _ hc))
    exact ⟨r :: rs, by simp only [reportBlocks, hr, hrs]⟩

/-- After a completed terminal report the file report completes. -/
theorem output_to_file_ok (F : Function) (st st1 : Maps)
    (h : terminalReport F st = Except.ok st1) :
    ∃ r, output_to_file F st1.bb_uevar_map st1.bb_kill_map st1.bb_live_out_map
      = Except.ok r := by
  obtain ⟨h1, _, h3⟩ := terminalReportFrom_ok _ st st1 h
  apply reportBlocks_ok
  intro b hb
  exact ⟨(h3 b hb).1, (h1 b).mpr (h3 b hb).2⟩

theorem classifyBlock_UEVAR_ne (b : Nat) (insts : List Instruction) :
    ∀ (st : Maps) (c : Nat), c ≠ b → (insts.foldl (classifyInst b) st).UEVAR c = st.UEVAR c := by
  induction insts with
  | nil => intro st c _; rfl
  | cons i insts ih =>
    intro st c hc
    rw [List.foldl_cons, ih _ c hc, classifyInst_UEVAR_ne b st i c hc]

theorem classifyFrom_UEVAR_out (bbs : List BasicBlock) :
    ∀ (b0 : Nat) (st : Maps) (c : Nat), (c < b0 ∨ b0 + bbs.length ≤ c) →
      (classifyFrom b0 bbs st).UEVAR c = st.UEVAR c := by
  induction bbs with
  | nil => intro b0 st c _; rfl
  | cons bb bbs ih =>
    intro b0 st c hc
    simp only [classifyFrom]
    rw [ih (b0 + 1) _ c (by simp only [List.length_cons] at hc; omega)]
    unfold classifyBlock
    exact classifyBlock_UEVAR_ne b0 bb.insts st c (by simp only [List.length_cons] at hc; omega)

/-- Classification leaves UEVAR empty for a handle that is no block of the function. -/
theorem classify_UEVAR_out (F : Function) (c : Nat) (hc : F.length ≤ c) :
    (classify F).UEVAR c = ∅ := by
  unfold classify
  rw [classifyFrom_UEVAR_out F 0 emptyMaps c (Or.inr (by omega))]
  rfl

/-- When classification puts no null pointer into UEVAR, the state the solver returns holds
none in any set. -/
theorem analyse_noNull (F : Function) (hU : ∀ b, b < F.length → none ∉ (classify F).UEVAR b)
    (fuel : Nat) (st : Maps) (h : analyse F fuel = some st) (b : Nat) : NoNull st b := by
  have hU2 : ∀ c, none ∉ (classify F).UEVAR c := by
    intro c
    by_cases hc : c < F.length
    · exact hU c hc
    · rw [classify_UEVAR_out F c (Nat.le_of_not_lt hc)]
      simp
  refine ⟨?_, ?_, ?_⟩
  · rw [whileLoop_UEVAR F fuel _ st h b]
    exact hU2 b
  · rw [whileLoop_KILL F fuel _ st h b]
    intro hin
    obtain ⟨a, _, ha, _⟩ := (classify_KILL_mem F b none).mp hin
    exact Option.noConfusion ha
  · intro hin
    refine whileLoop_closed (fun _ v => v ≠ none) ?_ fuel _ st (classify_inv F) h ?_ b none hin rfl
    · intro c s v _ hv
      rcases hv with hv | ⟨hv, _⟩
      · intro e
        subst e
        exact hU2 s hv
      · exact hv
    · intro c v hv
      simp [Maps.LIVEOUT, classify_live] at hv

/-! ## Claims about the file name and the reports -/

/-- C15 on the code: for the source names `./test` and `../dir/test`, which have no
extension, the report file is `.out` and `..out`, not the whole name followed by `.out`;
names without a dot and names whose last dot starts the extension come out as claimed. -/
theorem output_name_cut_at_last_dot :
    outputFileName "./test" = ".out" ∧ outputFileName "../dir/test" = "..out" ∧
      outputFileName "test.c" = "test.out" ∧ outputFileName "test" = "test.out" := by
  refine ⟨by decide, by decide, by decide, by decide⟩

/-- C18 (report lookups never fail): no run ends in `std::out_of_range`; whenever the solver
has returned and the terminal report has completed, so that `output_to_file` is called, each
of the three maps has an entry for every block of the function and the file report completes.
Such runs exist: when classification puts no null pointer into UEVAR, some number of sweeps
makes the run complete with a file report. A run with a null pointer in UEVAR ends in the
terminal report, before `output_to_file` is called. -/
theorem report_lookups_succeed (F : Function) :
    (∀ fuel, runOnFunction F fuel ≠ some (Except.error Fault.outOfRange)) ∧
      (∀ fuel st st1, analyse F fuel = some st → terminalReport F st = Except.ok st1 →
        (∀ b, b < F.length → HasEntries st1 b) ∧
          ∃ r, output_to_file F st1.bb_uevar_map st1.bb_kill_map st1.bb_live_out_map
            = Except.ok r) ∧
      ((∀ b, b < F.length → none ∉ (classify F).UEVAR b) →
        ∃ fuel r, runOnFunction F fuel = some (Except.ok r)) ∧
      (runOnFunction compareFromPointer 1 = some (Except.error Fault.nullDereference) ∧
        runOnFunction storeFromPointer 1 = some (Except.error Fault.nullDereference)) := by
  refine ⟨?_, ?_, ?_, ⟨rfl, rfl⟩⟩
  · intro fuel hrun
    unfold runOnFunction at hrun
    cases h : analyse F fuel with
    | none => rw [h] at hrun; exact Option.noConfusion hrun
    | some st =>
      rw [h] at hrun
      cases ht : terminalReport F st with
      | error e =>
        simp only [ht] at hrun
        have he := terminalReportFrom_error _ st e ht
        have e2 : e = Fault.outOfRange := by
          injection hrun with h1
          injection h1
        rw [he] at e2
        exact Fault.noConfusion e2
      | ok st1 =>
        obtain ⟨r, hr⟩ := output_to_file_ok F st st1 ht
        simp only [ht, hr] at hrun
        injection hrun with h1
        exact Except.noConfusion h1
  · intro fuel st st1 _ ht
    refine ⟨?_, output_to_file_ok F st st1 ht⟩
    intro b hb
    exact ((terminalReportFrom_ok _ st st1 ht).2.2 b (List.mem_range.mpr hb)).1
  · intro hU
    obtain ⟨fuel, st, h⟩ := analyse_terminates F
    obtain ⟨st1, ht⟩ := terminalReportFrom_of_noNull (List.range F.length) st
      (fun b _ => analyse_noNull F hU fuel st h b)
    obtain ⟨r, hr⟩ := output_to_file_ok F st st1 ht
    refine ⟨fuel, r, ?_⟩
    unfold runOnFunction
    rw [h]
    simp only
    rw [show terminalReport F st = Except.ok st1 from ht]
    simp only [hr]

/-- Witness for C18: Scenario 1, whose sets hold genuine slots only, and two blocks without
instructions and without edges, which have no UEVAR entry before the terminal report. -/
theorem report_lookups_succeed_witness :
    (classify isolatedBlocks).bb_uevar_map.lookup 0 = none ∧
      (∃ r, runOnFunction isolatedBlocks 1 = some (Except.ok r)) ∧
      ∃ fuel r, runOnFunction scenario1 fuel = some (Except.ok r) :=
  ⟨rfl, ⟨_, rfl⟩, (report_lookups_succeed scenario1).2.2.1 (by decide)⟩

/-! ## Sweeps in another order -/

theorem whileLoop_eq_whileLoopIn (F : Function) :
    ∀ (fuel : Nat) (st : Maps),
      whileLoop F fuel st = whileLoopIn F (List.range F.length).reverse fuel st := by
  intro fuel
  induction fuel with
  | zero => intro st; rfl
  | succ n ih =>
    intro st
    simp only [whileLoop, whileLoopIn]
    rw [show sweepIn F (List.range F.length).reverse st = sweep F st from rfl]
    by_cases hf : (sweep F st).2 = true
    · rw [if_pos hf, if_pos hf, ih]
    · rw [if_neg hf, if_neg hf]

theorem sweepIn_inv {F : Function} {U K : Nat → SlotSet} {st : Maps} (order : List Nat)
    (h : SolverInv F U K st) : SolverInv F U K (sweepIn F order st).1 :=
  blockFold_inv _ (st, false) h

theorem sweepIn_mono {F : Function} {U K : Nat → SlotSet} {st : Maps} (order : List Nat)
    (h : SolverInv F U K st) (c : Nat) : st.LIVEOUT c ⊆ (sweepIn F order st).1.LIVEOUT c :=
  blockFold_mono _ (st, false) h c

theorem sweepIn_closed {F : Function} {U K : Nat → SlotSet} {st : Maps} (order : List Nat)
    (h : SolverInv F U K st) (P : Nat → AllocaPtr → Prop)
    (hP : ∀ b s v, s ∈ successors F b → (v ∈ U s ∨ (P s v ∧ v ∉ K s)) → P b v)
    (h0 : ∀ c v, v ∈ st.LIVEOUT c → P c v) :
    ∀ c v, v ∈ (sweepIn F order st).1.LIVEOUT c → P c v :=
  blockFold_closed P hP _ (st, false) h h0

/-- A sweep over an order that contains every block and leaves the flag false: the state
solves the equations. -/
theorem sweepIn_flag_false {F : Function} {U K : Nat → SlotSet} {st : Maps}
    (order : List Nat) (hcov : ∀ b, b < F.length → b ∈ order)
    (h : SolverInv F U K st) (hf : (sweepIn F order st).2 = false) :
    (sweepIn F order st).1.LIVEOUT = st.LIVEOUT ∧
      ∀ b v, v ∈ st.LIVEOUT b ↔ Flows F U K st.LIVEOUT b v := by
  obtain ⟨_, h2, h3⟩ := blockFold_flag_false _ (st, false) h hf
  refine ⟨h2, ?_⟩
  intro b v
  by_cases hb : b < F.length
  · exact h3 b (hcov b hb) v
  · constructor
    · exact h.justified b v
    · rintro ⟨s, hs, _⟩
      exact absurd (mem_successors_lt hs) hb

theorem sweepIn_mass_lt {F : Function} {U K : Nat → SlotSet} {st : Maps} (order : List Nat)
    (h : SolverInv F U K st) (hf : (sweepIn F order st).2 = true) :
    mass F st < mass F (sweepIn F order st).1 := by
  rcases blockFold_flag_true _ (st, false) h hf with h1 | ⟨b, _, hlt⟩
  · simp at h1
  · have hb : b < F.length := by
      obtain ⟨v, hv, _⟩ := Finset.exists_of_ssubset hlt
      obtain ⟨s, hs, _⟩ := (sweepIn_inv order h).justified b v hv
      exact mem_successors_lt hs
    unfold mass
    apply Finset.sum_lt_sum
    · intro c _
      exact Finset.card_le_card (sweepIn_mono order h c)
    · exact ⟨b, Finset.mem_range.mpr hb, Finset.card_lt_card hlt⟩

theorem whileLoopIn_exit {F : Function} {U K : Nat → SlotSet} (order : List Nat)
    (hcov : ∀ b, b < F.length → b ∈ order) :
    ∀ (fuel : Nat) (st st' : Maps), SolverInv F U K st →
      whileLoopIn F order fuel st = some st' →
      SolverInv F U K st' ∧ ∀ b v, v ∈ st'.LIVEOUT b ↔ Flows F U K st'.LIVEOUT b v := by
  intro fuel
  induction fuel with
  | zero => intro st st' _ h; simp [whileLoopIn] at h
  | succ n ih =>
    intro st st' h hrun
    simp only [whileLoopIn] at hrun
    by_cases hf : (sweepIn F order st).2 = true
    · rw [if_pos hf] at hrun
      exact ih _ _ (sweepIn_inv order h) hrun
    · rw [if_neg hf] at hrun
      have hst : (sweepIn F order st).1 = st' := Option.some.inj hrun
      have hf' : (sweepIn F order st).2 = false := by simpa using hf
      obtain ⟨e, hfix⟩ := sweepIn_flag_false order hcov h hf'
      have hL : st'.LIVEOUT = st.LIVEOUT := hst ▸ e
      refine ⟨hst ▸ sweepIn_inv order h, ?_⟩
      rw [hL]
      exact hfix

theorem whileLoopIn_closed {F : Function} {U K : Nat → SlotSet} (order : List Nat)
    (P : Nat → AllocaPtr → Prop)
    (hP : ∀ b s v, s ∈ successors F b → (v ∈ U s ∨ (P s v ∧ v ∉ K s)) → P b v) :
    ∀ (fuel : Nat) (st st' : Maps), SolverInv F U K st →
      whileLoopIn F order fuel st = some st' →
      (∀ c v, v ∈ st.LIVEOUT c → P c v) → ∀ c v, v ∈ st'.LIVEOUT c → P c v := by
  intro fuel
  induction fuel with
  | zero => intro st st' _ h; simp [whileLoopIn] at h
  | succ n ih =>
    intro st st' h hrun h0
    simp only [whileLoopIn] at hrun
    by_cases hf : (sweepIn F order st).2 = true
    · rw [if_pos hf] at hrun
      exact ih _ _ (sweepIn_inv order h) hrun (sweepIn_closed order h P hP h0)
    · rw [if_neg hf] at hrun
      have hst : (sweepIn F order st).1 = st' := Option.some.inj hrun
      exact hst ▸ sweepIn_closed order h P hP h0

theorem whileLoopIn_terminates {F : Function} {U K : Nat → SlotSet} (order : List Nat)
    (X : SlotSet)
    (hX : ∀ b s v, s ∈ successors F b → (v ∈ U s ∨ (v ∈ X ∧ v ∉ K s)) → v ∈ X) :
    ∀ (fuel : Nat) (st : Maps), SolverInv F U K st → (∀ c, st.LIVEOUT c ⊆ X) →
      F.length * X.card < mass F st + fuel → ∃ st', whileLoopIn F order fuel st = some st' := by
  intro fuel
  induction fuel with
  | zero =>
    intro st _ hsub hlt
    exact absurd (mass_le F st X hsub) (by omega)
  | succ n ih =>
    intro st h hsub hlt
    simp only [whileLoopIn]
    by_cases hf : (sweepIn F order st).2 = true
    · rw [if_pos hf]
      have hm := sweepIn_mass_lt order h hf
      refine ih _ (sweepIn_inv order h) ?_ (by omega)
      intro c v hv
      exact sweepIn_closed order h (fun _ w => w ∈ X) hX (fun c w hw => hsub c hw) c v hv
    · rw [if_neg hf]
      exact ⟨_, rfl⟩

theorem solveIn_terminates (F : Function) (order : List Nat) (uevar kill : BBMap) :
    ∃ fuel st, solveIn F order uevar kill fuel = some st := by
  refine ⟨F.length * (slotUniverse F uevar.read).card + 1, ?_⟩
  apply whileLoopIn_terminates order (slotUniverse F uevar.read)
    (slotUniverse_closed F uevar.read kill.read) _ _ (solverInit_inv F uevar kill)
  · intro c
    rw [solverInit_LIVEOUT]
    exact Finset.empty_subset _
  · omega

/-- A solution of the solver's equations is closed under the transfer rule. -/
theorem closed_of_fix {F : Function} {U K L : Nat → SlotSet}
    (hfix : ∀ b v, v ∈ L b ↔ Flows F U K L b v) :
    ∀ b s v, s ∈ successors F b → (v ∈ U s ∨ (v ∈ L s ∧ v ∉ K s)) → v ∈ L b := by
  intro b s v hs hv
  rcases hv with hv | ⟨hv, hk⟩
  · exact (hfix b v).mpr ⟨s, hs, Or.inl hv⟩
  · by_cases hsb : s = b
    · subst hsb; exact hv
    · exact (hfix b v).mpr ⟨s, hs, Or.inr ⟨hsb, hv, hk⟩⟩

/-- A solution of the liveness equations is closed under the transfer rule. -/
theorem IsSolution.closed {F : Function} {U K L : Nat → SlotSet} (h : IsSolution F U K L) :
    ∀ b s v, s ∈ successors F b → (v ∈ U s ∨ (v ∈ L s ∧ v ∉ K s)) → v ∈ L b := by
  intro b s v hs hv
  rw [h b]
  simp only [Finset.mem_biUnion, List.mem_toFinset, Finset.mem_union, Finset.mem_sdiff]
  exact ⟨s, hs, hv.symm⟩

/-- Sweeping in any order that contains every block gives the LIVEOUT sets of the reverse
order. -/
theorem solveIn_eq_solve {F : Function} {uevar kill : BBMap} {order : List Nat}
    (hcov : ∀ b, b < F.length → b ∈ order) {fuel fuel2 : Nat} {st st2 : Maps}
    (h : solve F uevar kill fuel = some st)
    (h2 : solveIn F order uevar kill fuel2 = some st2) (b : Nat) :
    st2.LIVEOUT b = st.LIVEOUT b := by
  have h0 := solverInit_inv F uevar kill
  obtain ⟨_, _, _, hfix⟩ := whileLoop_exit fuel _ _ h0 h
  obtain ⟨_, hfix2⟩ := whileLoopIn_exit order hcov fuel2 _ _ h0 h2
  have hempty : ∀ (P : Nat → AllocaPtr → Prop) (c : Nat) (v : AllocaPtr),
      v ∈ (solverInit uevar kill).LIVEOUT c → P c v := by
    intro P c v hv
    rw [solverInit_LIVEOUT] at hv
    simp at hv
  apply Finset.Subset.antisymm
  · intro v hv
    exact whileLoopIn_closed order (fun c w => w ∈ st.LIVEOUT c) (closed_of_fix hfix)
      fuel2 _ _ h0 h2 (hempty _) b v hv
  · intro v hv
    exact whileLoop_closed (fun c w => w ∈ st2.LIVEOUT c) (closed_of_fix hfix2)
      fuel _ _ h0 h (hempty _) b v hv

/-- C17 (least solution, independence of the traversal order): the LIVEOUT the solver
returns is contained, block by block, in every assignment that satisfies the liveness
equation at every block; and for every order that contains all blocks, the solver sweeping in
that order returns, and returns the same LIVEOUT sets. -/
theorem least_solution (F : Function) (uevar kill : BBMap) (fuel : Nat) (st : Maps)
    (h : solve F uevar kill fuel = some st) :
    (∀ L : Nat → SlotSet, IsSolution F uevar.read kill.read L → ∀ b, st.LIVEOUT b ⊆ L b) ∧
      ∀ order : List Nat, (∀ b, b < F.length → b ∈ order) →
        (∃ fuel2 st2, solveIn F order uevar kill fuel2 = some st2) ∧
          ∀ fuel2 st2, solveIn F order uevar kill fuel2 = some st2 →
            ∀ b, st2.LIVEOUT b = st.LIVEOUT b := by
  have h0 := solverInit_inv F uevar kill
  constructor
  · intro L hL b v hv
    refine whileLoop_closed (fun c w => w ∈ L c) hL.closed fuel _ _ h0 h ?_ b v hv
    intro c w hw
    rw [solverInit_LIVEOUT] at hw
    simp at hw
  · intro order hcov
    exact ⟨solveIn_terminates F order uevar kill,
      fun fuel2 st2 h2 b => solveIn_eq_solve hcov h h2 b⟩

/-- Witness for C17 on the loop graph: sweeping in forward order `B0, B1, B2` needs one
sweep more and ends with the same `LIVEOUT(B0)`. -/
theorem least_solution_witness :
    ∃ st st2, solve loopCFG loopUEVAR BBMap.empty 2 = some st ∧
      solveIn loopCFG [0, 1, 2] loopUEVAR BBMap.empty 3 = some st2 ∧
      st2.LIVEOUT 0 = st.LIVEOUT 0 :=
  ⟨_, _, rfl, rfl,
    ((least_solution loopCFG loopUEVAR BBMap.empty 2 _ rfl).2 [0, 1, 2]
      (by intro b hb; simp [loopCFG] at hb; simp; omega)).2 3 _ rfl 0⟩

/-! ## The pseudocode of the specification against the code -/

theorem specNew_fold_mem (U K L : Nat → SlotSet) (l : List Nat) :
    ∀ (acc : SlotSet) (v : AllocaPtr),
      v ∈ l.foldl (fun new s => new ∪ ((L s \ K s) ∪ U s)) acc ↔
        v ∈ acc ∨ ∃ s ∈ l, (v ∈ L s ∧ v ∉ K s) ∨ v ∈ U s := by
  induction l with
  | nil => intro acc v; simp
  | cons s l ih =>
    intro acc v
    rw [List.foldl_cons, ih]
    constructor
    · rintro (h | ⟨t, ht, h⟩)
      · simp only [Finset.mem_union, Finset.mem_sdiff] at h
        rcases h with h | ⟨h1, h2⟩ | h
        · exact Or.inl h
        · exact Or.inr ⟨s, List.mem_cons_self _ _, Or.inl ⟨h1, h2⟩⟩
        · exact Or.inr ⟨s, List.mem_cons_self _ _, Or.inr h⟩
      · exact Or.inr ⟨t, List.mem_cons_of_mem _ ht, h⟩
    · rintro (h | ⟨t, ht, h⟩)
      · exact Or.inl (Finset.mem_union_left _ h)
      · rcases List.mem_cons.mp ht with rfl | ht2
        · left
          simp only [Finset.mem_union, Finset.mem_sdiff]
          rcases h with h | h
          · exact Or.inr (Or.inl h)
          · exact Or.inr (Or.inr h)
        · exact Or.inr ⟨t, ht2, h⟩

theorem specNew_mem (F : Function) (U K L : Nat → SlotSet) (b : Nat) (v : AllocaPtr) :
    v ∈ specNew F U K L b ↔ ∃ s ∈ successors F b, (v ∈ L s ∧ v ∉ K s) ∨ v ∈ U s := by
  unfold specNew
  rw [specNew_fold_mem]
  simp

/-- In a state satisfying the invariant the pseudocode and the code compute the same new
LIVEOUT set for a block. -/
theorem specNew_eq_blockStep {F : Function} {U K : Nat → SlotSet} {acc : Maps × Bool}
    (h : SolverInv F U K acc.1) (b : Nat) :
    specNew F U K acc.1.LIVEOUT b = (blockStep F acc b).1.LIVEOUT b := by
  ext v
  rw [specNew_mem, blockStep_LIVEOUT_self, h.uevar, h.kill]
  constructor
  · rintro ⟨s, hs, hv⟩
    rcases hv with ⟨hv, hk⟩ | hv
    · by_cases hsb : s = b
      · subst hsb; exact h.justified s v hv
      · exact ⟨s, hs, Or.inr ⟨hsb, hv, hk⟩⟩
    · exact ⟨s, hs, Or.inl hv⟩
  · rintro ⟨s, hs, hv⟩
    rcases hv with hv | ⟨_, hv, hk⟩
    · exact ⟨s, hs, Or.inr hv⟩
    · exact ⟨s, hs, Or.inl ⟨hv, hk⟩⟩

theorem blockStep_flag_eq (F : Function) (acc : Maps × Bool) (b : Nat) :
    (blockStep F acc b).2 =
      if (blockStep F acc b).1.LIVEOUT b \ acc.1.LIVEOUT b = ∅ then acc.2 else true := by
  simp [blockStep, Maps.LIVEOUT]

theorem specBlockStep_sim {F : Function} {U K : Nat → SlotSet} {acc : Maps × Bool}
    (h : SolverInv F U K acc.1) (b : Nat) :
    specBlockStep F U K (acc.1.LIVEOUT, acc.2) b =
      ((blockStep F acc b).1.LIVEOUT, (blockStep F acc b).2) := by
  unfold specBlockStep
  simp only
  rw [specNew_eq_blockStep h b, ← blockStep_flag_eq]
  congr 1
  funext c
  by_cases hc : c = b
  · subst hc; simp
  · simp only [if_neg hc]
    exact (blockStep_LIVEOUT_ne F acc b c hc).symm

theorem specFold_sim {F : Function} {U K : Nat → SlotSet} (order : List Nat) :
    ∀ acc : Maps × Bool, SolverInv F U K acc.1 →
      order.foldl (specBlockStep F U K) (acc.1.LIVEOUT, acc.2) =
        ((order.foldl (blockStep F) acc).1.LIVEOUT, (order.foldl (blockStep F) acc).2) := by
  induction order with
  | nil => intro acc _; rfl
  | cons b bs ih =>
    intro acc h
    rw [List.foldl_cons, List.foldl_cons, specBlockStep_sim h b]
    exact ih _ (blockStep_inv h b)

theorem specSweep_sim {F : Function} {U K : Nat → SlotSet} (order : List Nat) {st : Maps}
    (h : SolverInv F U K st) :
    specSweep F order U K st.LIVEOUT =
      ((sweepIn F order st).1.LIVEOUT, (sweepIn F order st).2) :=
  specFold_sim order (st, false) h

/-- The pseudocode run from the LIVEOUT sets of a state satisfying the invariant returns what
the code returns, for every order and every number of sweeps. -/
theorem specLoop_sim {F : Function} {U K : Nat → SlotSet} (order : List Nat) :
    ∀ (fuel : Nat) (st : Maps), SolverInv F U K st →
      specLoop F order U K fuel st.LIVEOUT =
        (whileLoopIn F order fuel st).map Maps.LIVEOUT := by
  intro fuel
  induction fuel with
  | zero => intro st _; rfl
  | succ n ih =>
    intro st h
    simp only [specLoop, whileLoopIn]
    rw [specSweep_sim order h]
    simp only
    by_cases hf : (sweepIn F order st).2 = true
    · rw [if_pos hf, if_pos hf]
      exact ih _ (sweepIn_inv order h)
    · rw [if_neg hf, if_neg hf]
      rfl

theorem specSolve_sim (F : Function) (order : List Nat) (uevar kill : BBMap) (fuel : Nat) :
    specSolve F order uevar.read kill.read fuel =
      (solveIn F order uevar kill fuel).map Maps.LIVEOUT :=
  specLoop_sim order fuel _ (solverInit_inv F uevar kill)

/-- C16 (the in-place solver refines the snapshot pseudocode): run in the code's reverse
order, the pseudocode returns exactly the LIVEOUT sets the code returns, for every function,
all UEVAR and KILL maps and every number of sweeps, and both do return; run in any order
containing all blocks, the pseudocode returns the LIVEOUT sets of the code. The two differ on
a single block step in a state the solver does not reach: for a block that is its own
successor the code reads the cleared set, the pseudocode the old one. In Scenario 2 slot `x`
is in `LIVEOUT(B1)` and in `LIVEOUT(B0)`. -/
theorem inplace_refines_snapshot (F : Function) (uevar kill : BBMap) :
    (∀ fuel, specSolve F (List.range F.length).reverse uevar.read kill.read fuel =
        (solve F uevar kill fuel).map Maps.LIVEOUT) ∧
      (∃ fuel st, solve F uevar kill fuel = some st ∧
        specSolve F (List.range F.length).reverse uevar.read kill.read fuel =
          some st.LIVEOUT) ∧
      (∀ order : List Nat, (∀ b, b < F.length → b ∈ order) →
        ∀ fuel fuel2 st L, solve F uevar kill fuel = some st →
          specSolve F order uevar.read kill.read fuel2 = some L → L = st.LIVEOUT) ∧
      ((blockStep selfLoop (selfLoopState, false) 0).1.LIVEOUT 0 = ∅ ∧
        (specBlockStep selfLoop BBMap.empty.read BBMap.empty.read
          (selfLoopState.LIVEOUT, false) 0).1 0 = {some 0}) ∧
      ∃ st, solve loopCFG loopUEVAR BBMap.empty 2 = some st ∧
        some 0 ∈ st.LIVEOUT 1 ∧ some 0 ∈ st.LIVEOUT 0 := by
  have hsame : ∀ fuel, specSolve F (List.range F.length).reverse uevar.read kill.read fuel =
      (solve F uevar kill fuel).map Maps.LIVEOUT := by
    intro fuel
    rw [specSolve_sim]
    unfold solveIn solve
    rw [whileLoop_eq_whileLoopIn]
  refine ⟨hsame, ?_, ?_, ⟨by decide, by decide⟩, ⟨_, rfl, by decide, by decide⟩⟩
  · obtain ⟨st, hst⟩ := solve_terminates_within F uevar kill
    exact ⟨_, st, hst, by rw [hsame, hst]; rfl⟩
  · intro order hcov fuel fuel2 st L h hL
    rw [specSolve_sim] at hL
    cases h2 : solveIn F order uevar kill fuel2 with
    | none => rw [h2] at hL; exact Option.noConfusion hL
    | some st2 =>
      rw [h2] at hL
      have e : st2.LIVEOUT = L := Option.some.inj hL
      rw [← e]
      funext b
      exact solveIn_eq_solve hcov h h2 b

end LivenessAnalysis
